import Mathlib

/-!
Verification of the Miracle autonomous-agent orchestration core.

This file gives a shallow embedding, in Lean 4, of the components of the
repository `mrwalker511/Miracle` that the specification claims talk about:

* `src/utils/circuit_breaker.py`      (`CircuitBreaker`)
* `src/utils/context_hygiene.py`      (`ContextHygieneManager`)
* `src/utils/execution_hooks.py`      (`HookRegistry` and the hook pipeline)
* `src/memory/failure_analyzer.py`    (`FailureAnalyzer`)
* `src/orchestrator.py`               (`Orchestrator.run`)

Modelling conventions:

* Python dictionaries become association lists `List (String × JValue)` whose
  key order models Python dict insertion order; assignment to an existing key
  replaces the value in place (as in CPython), modelled by `dictInsert`.
* Machine integers are `Nat` (iteration counters and thresholds are
  non-negative throughout the source).
* `tiktoken` token counting (`TokenCounter.count_tokens`, an external
  library call) is modelled by the deterministic approximation
  `count_tokens s = s.length / 4` (the standard four-characters-per-token
  estimate); `json.dumps` is modelled by a serializer whose exact output
  length is `vlen`, assuming strings free of characters requiring JSON
  escaping.
* Fallible calls (agent `execute`, hook `execute`) return `Except String α`;
  the `.error` case models a raised Python exception.
* Logging, database writes and metrics are side effects the control flow
  never reads back, except the per-iteration records written through
  `db.create_iteration(task_id, n, state)`, which the orchestrator model
  keeps as an explicit trace of `(iteration, phase)` pairs.
-/

namespace Miracle

/-! ## Circuit breaker (`src/utils/circuit_breaker.py`) -/

/-- State of `CircuitBreaker`: the two thresholds fixed at construction and
the one-shot `user_confirmed` warning flag. -/
structure CircuitBreaker where
  warning_threshold : Nat
  hard_stop : Nat
  user_confirmed : Bool
deriving Repr, DecidableEq

/-- `CircuitBreaker.should_stop` (lines 21-48): returns whether to stop and
the breaker state afterwards (the Python method mutates `self`). -/
def CircuitBreaker.should_stop (cb : CircuitBreaker) (current_iteration : Nat) :
    Bool × CircuitBreaker :=
  if cb.hard_stop ≤ current_iteration then
    (true, cb)
  else if cb.warning_threshold ≤ current_iteration ∧ cb.user_confirmed = false then
    (false, { cb with user_confirmed := true })
  else
    (false, cb)

/-- `CircuitBreaker.reset` (lines 50-53): clears the one-shot flag. -/
def CircuitBreaker.reset (cb : CircuitBreaker) : CircuitBreaker :=
  { cb with user_confirmed := false }

/-- C2: `should_stop i` is true iff `i >= hard_stop`; in the warning window
`warning_threshold <= i < hard_stop` every call returns false and leaves the
one-shot flag set; `should_stop` never clears a set flag, and `reset` clears
it. -/
theorem circuit_breaker_should_stop_spec (cb : CircuitBreaker) (i : Nat) :
    ((cb.should_stop i).1 = true ↔ cb.hard_stop ≤ i)
    ∧ (cb.warning_threshold ≤ i → i < cb.hard_stop →
        (cb.should_stop i).1 = false ∧ ((cb.should_stop i).2).user_confirmed = true)
    ∧ (cb.user_confirmed = true → ((cb.should_stop i).2).user_confirmed = true)
    ∧ (cb.reset).user_confirmed = false := by
  by_cases h1 : cb.hard_stop ≤ i
  · simp only [CircuitBreaker.should_stop, CircuitBreaker.reset, if_pos h1]
    refine ⟨by simpa using h1, fun _ hh => absurd h1 (by omega), fun h => h, trivial⟩
  · by_cases h2 : cb.warning_threshold ≤ i ∧ cb.user_confirmed = false
    · simp only [CircuitBreaker.should_stop, CircuitBreaker.reset, if_neg h1, if_pos h2]
      exact ⟨by simpa using h1, fun _ _ => ⟨trivial, trivial⟩, fun _ => trivial, trivial⟩
    · simp only [CircuitBreaker.should_stop, CircuitBreaker.reset, if_neg h1, if_neg h2]
      refine ⟨by simpa using h1, ?_, fun h => h, trivial⟩
      intro hw hh
      refine ⟨trivial, ?_⟩
      rcases Classical.not_and_iff_or_not_not.mp h2 with h | h
      · exact absurd hw h
      · simpa using h

/-- Witness for C2 at the default thresholds `(12, 15)` and iteration 13. -/
theorem circuit_breaker_should_stop_spec_witness :
    (((CircuitBreaker.mk 12 15 false).should_stop 13).1 = true ↔ 15 ≤ 13)
    ∧ (12 ≤ 13 → 13 < 15 →
        ((CircuitBreaker.mk 12 15 false).should_stop 13).1 = false
        ∧ (((CircuitBreaker.mk 12 15 false).should_stop 13).2).user_confirmed = true)
    ∧ ((CircuitBreaker.mk 12 15 false).user_confirmed = true →
        (((CircuitBreaker.mk 12 15 false).should_stop 13).2).user_confirmed = true)
    ∧ ((CircuitBreaker.mk 12 15 false).reset).user_confirmed = false :=
  circuit_breaker_should_stop_spec (CircuitBreaker.mk 12 15 false) 13

/-! ## JSON-like values, Python dict model, serialization size

`Context` (and every nested Python value the claims touch) is modelled by
`JValue`; a Python dict is an association list in insertion order. -/

/-- A Python/JSON value as it appears in the shared context. -/
inductive JValue where
  | null
  | bool (b : Bool)
  | num (n : Nat)
  | str (s : String)
  | arr (elems : List JValue)
  | obj (fields : List (String × JValue))

/-- A Python dict with string keys, in insertion order. -/
def Ctx := List (String × JValue)

/-- Dict lookup: value at the first (unique, for a real dict) matching key. -/
def lookup : List (String × JValue) → String → Option JValue
  | [], _ => none
  | (k, v) :: rest, key => if k = key then some v else lookup rest key

/-- Dict assignment `d[key] = val`: replaces in place if the key exists
(CPython keeps the original position), appends otherwise. -/
def dictInsert : List (String × JValue) → String → JValue → List (String × JValue)
  | [], key, val => [(key, val)]
  | (k, v) :: rest, key, val =>
    if k = key then (k, val) :: rest else (k, v) :: dictInsert rest key val

/-- Keys of a dict, in order. -/
def keys (m : List (String × JValue)) : List String := m.map Prod.fst

/-- Python truthiness of a `JValue` (`if not value: ...`). -/
def truthy : JValue → Bool
  | .null => false
  | .bool b => b
  | .num n => decide (n ≠ 0)
  | .str s => decide (s ≠ "")
  | .arr es => !es.isEmpty
  | .obj fs => !fs.isEmpty

mutual
/-- Length of `json.dumps(v)` with the default separators, assuming the
strings involved need no JSON escaping (true of every string in the claims
and of the orchestrator bookkeeping fields). -/
def vlen : JValue → Nat
  | .null => 4
  | .bool b => if b then 4 else 5
  | .num n => (Nat.toDigits 10 n).length
  | .str s => s.length + 2
  | .arr es => 2 + vlenArr es
  | .obj fs => 2 + vlenFields fs

/-- Length of the comma-separated serialization of array elements. -/
def vlenArr : List JValue → Nat
  | [] => 0
  | [v] => vlen v
  | v :: rest => vlen v + 2 + vlenArr rest

/-- Length of the comma-separated serialization of object fields
(`"key": value` pairs). -/
def vlenFields : List (String × JValue) → Nat
  | [] => 0
  | [(k, v)] => k.length + 4 + vlen v
  | (k, v) :: rest => k.length + 4 + vlen v + 2 + vlenFields rest
end

/-- Serialized length of one object field. -/
def entryLen (kv : String × JValue) : Nat := kv.1.length + 4 + vlen kv.2

/-- Sum of the field lengths of an object, without separators. -/
def sumEntry (l : List (String × JValue)) : Nat := (l.map entryLen).sum

theorem lookup_dictInsert_self (m : List (String × JValue)) (k : String) (v : JValue) :
    lookup (dictInsert m k v) k = some v := by
  induction m with
  | nil => simp [dictInsert, lookup]
  | cons hd tl ih =>
    obtain ⟨k0, v0⟩ := hd
    by_cases h : k0 = k
    · simp [dictInsert, lookup, h]
    · simp [dictInsert, lookup, h, ih]

theorem lookup_dictInsert_ne (m : List (String × JValue)) (k key : String) (v : JValue)
    (h : k ≠ key) : lookup (dictInsert m key v) k = lookup m k := by
  have hks : ¬ key = k := fun hh => h hh.symm
  induction m with
  | nil => simp [dictInsert, lookup, hks]
  | cons hd tl ih =>
    obtain ⟨k0, v0⟩ := hd
    by_cases h0 : k0 = key
    · have hk0 : ¬ k0 = k := by rw [h0]; exact hks
      simp [dictInsert, lookup, h0, hk0, hks]
    · simp [dictInsert, lookup, h0, ih]

theorem lookup_isSome_dictInsert (m : List (String × JValue)) (k key : String) (v : JValue)
    (h : (lookup m k).isSome) : (lookup (dictInsert m key v) k).isSome := by
  by_cases hk : k = key
  · subst hk
    simp [lookup_dictInsert_self]
  · rw [lookup_dictInsert_ne m k key v hk]
    exact h

theorem keys_dictInsert_subset (m : List (String × JValue)) (key : String) (v : JValue) :
    ∀ k, k ∈ keys (dictInsert m key v) → k ∈ keys m ∨ k = key := by
  induction m with
  | nil =>
    intro k hk
    simp [dictInsert, keys] at hk
    exact Or.inr hk
  | cons hd tl ih =>
    obtain ⟨k0, v0⟩ := hd
    intro k hk
    by_cases h0 : k0 = key
    · simp only [dictInsert, if_pos h0, keys, List.map_cons, List.mem_cons] at hk
      rcases hk with h | h
      · exact Or.inr (by rw [h, h0])
      · refine Or.inl ?_
        show k ∈ List.map Prod.fst ((k0, v0) :: tl)
        rw [List.map_cons]
        exact List.mem_cons_of_mem _ h
    · simp only [dictInsert, if_neg h0, keys, List.map_cons, List.mem_cons] at hk
      rcases hk with h | h
      · refine Or.inl ?_
        show k ∈ List.map Prod.fst ((k0, v0) :: tl)
        rw [List.map_cons, h]
        exact List.mem_cons_self _ _
      · rcases ih k h with h2 | h2
        · refine Or.inl ?_
          show k ∈ List.map Prod.fst ((k0, v0) :: tl)
          rw [List.map_cons]
          exact List.mem_cons_of_mem _ h2
        · exact Or.inr h2

/-! ## Context hygiene (`src/utils/context_hygiene.py`) -/

/-- Model of `TokenCounter.count_tokens` (`src/llm/token_counter.py`), which
calls the external `tiktoken` library: the deterministic standard estimate of
one token per four characters. -/
def count_tokens (s : String) : Nat := s.length / 4

/-- `count_tokens(json.dumps(context, default=str))`: the token estimate of a
serialized context, as computed in `analyze` and in `compact`. -/
def context_tokens (ctx : List (String × JValue)) : Nat := vlen (JValue.obj ctx) / 4

/-- `ContextHealthStatus` enum. -/
inductive ContextHealthStatus where
  | HEALTHY
  | WARNING
  | CRITICAL
  | OVERFLOW
deriving DecidableEq, Repr

/-- Exact rational division written with the kernel-computable `Rat.divInt`:
it agrees with field division, so concrete contexts can be analyzed by
evaluation. -/
theorem divInt_cast_div (a b : Nat) :
    Rat.divInt (a : Int) (b : Int) = (a : Rat) / (b : Rat) := by
  rw [Rat.divInt_eq_div]
  push_cast
  rfl

/-- `ContextThresholds` dataclass; the fractional thresholds are exact
rationals (0.50, 0.75 and 0.90 are exactly representable Python floats, so
`Rat` arithmetic agrees with the source; they are written with `Rat.divInt`,
which equals `/` by `divInt_cast_div`). -/
structure ContextThresholds where
  max_tokens : Nat := 128000
  warning_threshold : Rat := Rat.divInt 50 100
  critical_threshold : Rat := Rat.divInt 75 100
  overflow_threshold : Rat := Rat.divInt 90 100
  min_preserved_tokens : Nat := 4000

/-- `PreservationRule` dataclass. -/
structure PreservationRule where
  name : String
  pattern : String
  priority : Nat
  max_tokens : Nat := 2000
deriving DecidableEq, Repr

/-- `ContextSnapshot` dataclass (`compactable_tokens` is an `Int` because
`total - preserved` can be negative: `preserved` caps each rule separately
and can exceed the true total). -/
structure ContextSnapshot where
  total_tokens : Nat
  status : ContextHealthStatus
  preserved_tokens : Nat
  compactable_tokens : Int
  recommendation : String

/-- The default preservation rules built in
`ContextHygieneManager.__init__` (lines 84-91). -/
def preservation_rules : List PreservationRule :=
  [ ⟨"task_description", "task_description", 100, 500⟩,
    ⟨"goal", "goal", 100, 300⟩,
    ⟨"current_error", "previous_errors", 90, 1000⟩,
    ⟨"plan", "plan", 80, 800⟩,
    ⟨"latest_code", "code_files", 70, 4000⟩,
    ⟨"test_results", "test_results", 60, 1000⟩ ]

/-- Stable insertion into a priority-descending list: goes before the first
rule of strictly smaller priority (equal priorities keep their original
relative order, like Python's stable `sorted`). -/
def insertRuleDesc (r : PreservationRule) : List PreservationRule → List PreservationRule
  | [] => [r]
  | x :: xs => if x.priority ≤ r.priority then r :: x :: xs else x :: insertRuleDesc r xs

/-- Model of `sorted(self.preservation_rules, key=lambda r: -r.priority)`:
a stable sort by descending priority. -/
def sortRulesDesc : List PreservationRule → List PreservationRule
  | [] => []
  | r :: rest => insertRuleDesc r (sortRulesDesc rest)

/-- On the default rules the stable descending sort is the identity (they are
already listed in descending priority order). -/
theorem sortRulesDesc_preservation_rules :
    sortRulesDesc preservation_rules = preservation_rules := by
  decide

/-- The string used by `analyze`/`_count_preserved_tokens` to measure one
value: the raw string for `str` values, `json.dumps(value)` otherwise; this
returns its token count. -/
def value_token_count (v : JValue) : Nat :=
  match v with
  | .str s => count_tokens s
  | v => vlen v / 4

/-- `ContextHygieneManager._count_preserved_tokens` (lines 272-286). -/
def count_preserved_tokens (ctx : List (String × JValue)) : Nat :=
  preservation_rules.foldl
    (fun acc rule =>
      match lookup ctx rule.pattern with
      | none => acc
      | some v => acc + min (value_token_count v) rule.max_tokens)
    0

/-- `ContextHygieneManager.analyze` (lines 96-143). When `max_tokens = 0` the
source raises `ZeroDivisionError`; the model is total and yields ratio 0. -/
def analyze (thresholds : ContextThresholds) (ctx : List (String × JValue)) :
    ContextSnapshot :=
  let total_tokens := context_tokens ctx
  let preserved_tokens := count_preserved_tokens ctx
  let compactable_tokens : Int := (total_tokens : Int) - (preserved_tokens : Int)
  let usage_ratio : Rat := Rat.divInt (total_tokens : Int) (thresholds.max_tokens : Int)
  if thresholds.overflow_threshold ≤ usage_ratio then
    ⟨total_tokens, .OVERFLOW, preserved_tokens, compactable_tokens,
      "CRITICAL: Force context compaction immediately"⟩
  else if thresholds.critical_threshold ≤ usage_ratio then
    ⟨total_tokens, .CRITICAL, preserved_tokens, compactable_tokens,
      "Consider compacting context to prevent degradation"⟩
  else if thresholds.warning_threshold ≤ usage_ratio then
    ⟨total_tokens, .WARNING, preserved_tokens, compactable_tokens,
      "Monitor context size, approaching limits"⟩
  else
    ⟨total_tokens, .HEALTHY, preserved_tokens, compactable_tokens,
      "Context size healthy"⟩

/-- `ContextHygieneManager.suggest_compaction` (lines 258-270). -/
def suggest_compaction (snapshot : ContextSnapshot) : Bool :=
  snapshot.status = ContextHealthStatus.CRITICAL
    ∨ snapshot.status = ContextHealthStatus.OVERFLOW

/-- Truncation of an over-budget string preserved by a rule (compact, lines
169-176). `int(len(value) * (rule.max_tokens / tokens))` is modelled by the
exact rational floor `len * max_tokens / tokens`. Non-string values are kept
whole, as in the source. -/
def truncateValue (rule_max : Nat) (v : JValue) : JValue :=
  match v with
  | .str s =>
      let tokens := count_tokens s
      if rule_max < tokens then
        .str (String.mk ((s.data.take (s.length * rule_max / tokens)))
          ++ "\n[...truncated...]")
      else .str s
  | v => v

/-- Python `content.split('\n')` on the character list: splits at every
newline, keeping empty parts. -/
def splitOnNl : List Char → List (List Char)
  | [] => [[]]
  | c :: rest =>
    if c = '\n' then [] :: splitOnNl rest
    else
      match splitOnNl rest with
      | [] => [[c]]
      | l :: ls => (c :: l) :: ls

/-- `content.split('\n')` as a list of strings. -/
def pySplitLines (s : String) : List String :=
  (splitOnNl s.data).map (fun l => String.mk l)

/-- Python `'\n'.join(lines)`. -/
def joinNl : List String → String
  | [] => ""
  | [l] => l
  | l :: ls => l ++ "\n" ++ joinNl ls

/-- Head+tail truncation of one oversized code file
(`_compact_code_files`, lines 299-311). Non-string contents would raise in
the source (`count_tokens` of a non-string); the model keeps them unchanged. -/
def compactOneFile (kv : String × JValue) : String × JValue :=
  match kv.2 with
  | .str content =>
      if 2000 < count_tokens content then
        let lines := pySplitLines content
        if 100 < lines.length then
          (kv.1, .str (joinNl (lines.take 50
            ++ ["\n# [...middle truncated...]\n"]
            ++ lines.drop (lines.length - 50))))
        else (kv.1, .str content)
      else (kv.1, .str content)
  | _ => kv

/-- `ContextHygieneManager._compact_code_files` (lines 288-313): a falsy
value (`if not code_files`) yields an empty dict; a non-dict truthy value
would raise in the source and is kept unchanged in the model. -/
def compact_code_files (v : JValue) : JValue :=
  if truthy v = false then .obj []
  else
    match v with
    | .obj fs => .obj (fs.map compactOneFile)
    | v => v

/-- The fixed allow-list of `_compact_test_results` (lines 320-324). -/
def essential_fields : List String :=
  ["passed", "error_message", "error_type", "failed_tests", "test_count"]

/-- The dict case of `_compact_test_results` (lines 320-336): keep only the
allow-listed fields, then truncate a long error message in place. -/
def compact_test_results_obj (fs : List (String × JValue)) : JValue :=
  let compacted := fs.filter (fun kv => essential_fields.contains kv.1)
  match lookup compacted "error_message" with
  | some (.str s) =>
      if 500 < s.length then
        .obj (dictInsert compacted "error_message"
          (.str (String.mk (s.data.take 500) ++ "...")))
      else .obj compacted
  | _ => .obj compacted

/-- `ContextHygieneManager._compact_test_results` (lines 315-336): a falsy
value yields an empty dict; a non-dict truthy value would raise in the
source and is kept unchanged in the model. -/
def compact_test_results (v : JValue) : JValue :=
  if truthy v = false then .obj []
  else
    match v with
    | .obj fs => compact_test_results_obj fs
    | v => v

/-- The scalar bookkeeping fields copied verbatim by `compact` (line 193). -/
def small_fields : List String :=
  ["task_id", "iteration", "problem_type", "language", "workspace"]

/-- One pass of the preservation-rule loop of `compact` (lines 166-177):
copy the matched field, truncating an over-budget string value. -/
def ruleStep (ctx acc : List (String × JValue)) (rule : PreservationRule) :
    List (String × JValue) :=
  match lookup ctx rule.pattern with
  | none => acc
  | some v => dictInsert acc rule.pattern (truncateValue rule.max_tokens v)

/-- One pass of the small-field loop of `compact` (lines 192-196): copy the
field verbatim when present. -/
def copyFieldStep (ctx acc : List (String × JValue)) (f : String) :
    List (String × JValue) :=
  match lookup ctx f with
  | none => acc
  | some v => dictInsert acc f v

/-- `compact` after its preservation-rule loop (lines 165-177): the rules in
descending priority order, each matched field copied (truncated if over
budget) into the fresh dict. -/
def compact_c1 (ctx : List (String × JValue)) : List (String × JValue) :=
  (sortRulesDesc preservation_rules).foldl (ruleStep ctx) []

/-- `compact` after the special handling of `code_files` (lines 179-184). -/
def compact_c2 (ctx : List (String × JValue)) : List (String × JValue) :=
  match lookup ctx "code_files" with
  | none => compact_c1 ctx
  | some v => dictInsert (compact_c1 ctx) "code_files" (compact_code_files v)

/-- `compact` after the special handling of `test_results` (lines 186-190). -/
def compact_c3 (ctx : List (String × JValue)) : List (String × JValue) :=
  match lookup ctx "test_results" with
  | none => compact_c2 ctx
  | some v => dictInsert (compact_c2 ctx) "test_results" (compact_test_results v)

/-- `compact` after the scalar bookkeeping copies (lines 192-196). -/
def compact_c4 (ctx : List (String × JValue)) : List (String × JValue) :=
  small_fields.foldl (copyFieldStep ctx) (compact_c3 ctx)

/-- The `_compaction_metadata` value attached by `compact` (lines 198-207);
the dict literal is evaluated before the assignment, so the compacted token
count is measured on the dict without the metadata entry. -/
def compact_meta (ctx : List (String × JValue)) : JValue :=
  .obj
    [ ("compacted_at_iteration",
        match lookup ctx "iteration" with
        | some v => v
        | none => .num 0),
      ("original_token_count", .num (context_tokens ctx)),
      ("compacted_token_count", .num (context_tokens (compact_c4 ctx))) ]

/-- `ContextHygieneManager.compact` (lines 145-215), with the default
`summarizer=None` (the source never consults the summarizer). -/
def compact (ctx : List (String × JValue)) : List (String × JValue) :=
  dictInsert (compact_c4 ctx) "_compaction_metadata" (compact_meta ctx)

/-- The front zone of `apply_recency_bias` (line 234). -/
def beginning_keys : List String := ["goal", "task_description", "plan"]

/-- The middle zone of `apply_recency_bias` (line 240). -/
def middle_keys : List String := ["dependencies", "subtasks", "_compaction_metadata"]

/-- The end zone of `apply_recency_bias` (line 246). -/
def end_keys : List String := ["previous_errors", "test_results", "code_files", "iteration"]

/-- All keys classified into one of the three zones. -/
def classified_keys : List String := beginning_keys ++ middle_keys ++ end_keys

/-- Copy, in the order of `ks`, the fields of `ctx` whose key is in `ks`
(the `for key in ...: if key in context` loops of `apply_recency_bias`). -/
def pickKeys (ctx : List (String × JValue)) (ks : List String) :
    List (String × JValue) :=
  ks.filterMap (fun k => (lookup ctx k).map (fun v => (k, v)))

/-- `ContextHygieneManager.apply_recency_bias` (lines 217-256): three zones
followed by the remaining fields in their original order. -/
def apply_recency_bias (ctx : List (String × JValue)) : List (String × JValue) :=
  pickKeys ctx beginning_keys ++ pickKeys ctx middle_keys ++ pickKeys ctx end_keys
    ++ ctx.filter (fun kv => !(classified_keys.contains kv.1))

theorem lookup_append (l₁ l₂ : List (String × JValue)) (k : String) :
    lookup (l₁ ++ l₂) k =
      match lookup l₁ k with
      | some v => some v
      | none => lookup l₂ k := by
  induction l₁ with
  | nil => simp [lookup]
  | cons hd tl ih =>
    obtain ⟨k0, v0⟩ := hd
    by_cases h : k0 = k
    · simp [lookup, h]
    · simp [lookup, h, ih]

theorem pickKeys_cons (ctx : List (String × JValue)) (key : String) (ks : List String) :
    pickKeys ctx (key :: ks) =
      match lookup ctx key with
      | none => pickKeys ctx ks
      | some v => (key, v) :: pickKeys ctx ks := by
  rw [pickKeys, List.filterMap_cons]
  cases h : lookup ctx key with
  | none => simp [h, pickKeys]
  | some v => simp [h, pickKeys]

theorem lookup_pickKeys (ctx : List (String × JValue)) (ks : List String) (k : String) :
    lookup (pickKeys ctx ks) k = if k ∈ ks then lookup ctx k else none := by
  induction ks with
  | nil => simp [pickKeys, lookup]
  | cons key ks ih =>
    rw [pickKeys_cons]
    cases h : lookup ctx key with
    | none =>
      by_cases hk : k = key
      · subst hk
        rw [ih, h]
        simp
      · rw [ih]
        simp [hk]
    | some v =>
      by_cases hk : k = key
      · subst hk
        simp [lookup, h]
      · have hks : ¬ key = k := fun hh => hk hh.symm
        simp only [lookup, if_neg hks]
        rw [ih]
        simp [hk]

theorem lookup_filter_of_key_true (ctx : List (String × JValue))
    (p : String × JValue → Bool) (k : String) (h : ∀ v, p (k, v) = true) :
    lookup (ctx.filter p) k = lookup ctx k := by
  induction ctx with
  | nil => simp [lookup]
  | cons hd tl ih =>
    obtain ⟨k0, v0⟩ := hd
    by_cases hk : k0 = k
    · subst hk
      rw [List.filter_cons, h v0]
      simp [lookup]
    · rw [List.filter_cons]
      cases hp : p (k0, v0) with
      | true => simp [lookup, hk, ih]
      | false => simp [lookup, hk, ih]

theorem lookup_filter_of_key_false (ctx : List (String × JValue))
    (p : String × JValue → Bool) (k : String) (h : ∀ v, p (k, v) = false) :
    lookup (ctx.filter p) k = none := by
  induction ctx with
  | nil => simp [lookup]
  | cons hd tl ih =>
    obtain ⟨k0, v0⟩ := hd
    by_cases hk : k0 = k
    · subst hk
      rw [List.filter_cons, h v0]
      simpa using ih
    · rw [List.filter_cons]
      cases hp : p (k0, v0) with
      | true => simp [lookup, hk, ih]
      | false => simpa using ih

/-- `apply_recency_bias` does not change the value any key maps to. -/
theorem lookup_apply_recency_bias (ctx : List (String × JValue)) (k : String) :
    lookup (apply_recency_bias ctx) k = lookup ctx k := by
  unfold apply_recency_bias
  rw [lookup_append, lookup_append, lookup_append,
    lookup_pickKeys, lookup_pickKeys, lookup_pickKeys]
  by_cases hc : k ∈ classified_keys
  · have hmem := hc
    rw [classified_keys, List.mem_append, List.mem_append] at hmem
    cases hv : lookup ctx k with
    | none =>
      simp only [hv, ite_self]
      exact lookup_filter_of_key_false ctx _ k (fun v => by simp [hc])
    | some v =>
      rcases hmem with (hb | hm) | he
      · simp [hb, hv]
      · by_cases hb : k ∈ beginning_keys
        · simp [hb, hv]
        · simp [hb, hm, hv]
      · by_cases hb : k ∈ beginning_keys
        · simp [hb, hv]
        · by_cases hm : k ∈ middle_keys
          · simp [hb, hm, hv]
          · simp [hb, hm, he, hv]
  · have hb : ¬ k ∈ beginning_keys := fun h =>
      hc (by rw [classified_keys]; exact List.mem_append_left _ (List.mem_append_left _ h))
    have hm : ¬ k ∈ middle_keys := fun h =>
      hc (by rw [classified_keys]
             exact List.mem_append_left _ (List.mem_append_right _ h))
    have he : ¬ k ∈ end_keys := fun h =>
      hc (by rw [classified_keys]; exact List.mem_append_right _ h)
    simp only [hb, hm, he, if_false, ite_false]
    rw [lookup_filter_of_key_true ctx _ k (fun v => by simp [hc])]

theorem pickKeys_lookup_eq (a b : List (String × JValue))
    (h : ∀ k, lookup a k = lookup b k) (ks : List String) :
    pickKeys a ks = pickKeys b ks := by
  induction ks with
  | nil => rfl
  | cons key ks ih =>
    rw [pickKeys_cons, pickKeys_cons, h key, ih]

theorem filter_pickKeys_classified (ctx : List (String × JValue)) (ks : List String)
    (h : ∀ x ∈ ks, classified_keys.contains x = true) :
    (pickKeys ctx ks).filter (fun kv => !(classified_keys.contains kv.1)) = [] := by
  induction ks with
  | nil => rfl
  | cons key ks ih =>
    rw [pickKeys_cons]
    cases hl : lookup ctx key with
    | none => exact ih (fun x hx => h x (List.mem_cons_of_mem _ hx))
    | some v =>
      have hk : key ∈ classified_keys := by
        simpa using h key (List.mem_cons_self _ _)
      rw [List.filter_cons]
      simp only [hk]
      simp only [List.elem_eq_true_of_mem hk, Bool.not_true, Bool.false_eq_true,
        if_false, ite_false]
      exact ih (fun x hx => h x (List.mem_cons_of_mem _ hx))

theorem mem_pickKeys (ctx : List (String × JValue)) (ks : List String)
    (k : String) (v : JValue) :
    (k, v) ∈ pickKeys ctx ks ↔ k ∈ ks ∧ lookup ctx k = some v := by
  constructor
  · intro h
    rw [pickKeys, List.mem_filterMap] at h
    obtain ⟨a, ha, hfa⟩ := h
    cases hl : lookup ctx a with
    | none => rw [hl] at hfa; simp at hfa
    | some w =>
      rw [hl] at hfa
      simp only [Option.map_some'] at hfa
      have h12 := Option.some.inj hfa
      rw [Prod.mk.injEq] at h12
      obtain ⟨rfl, rfl⟩ := h12
      exact ⟨ha, hl⟩
  · rintro ⟨h1, h2⟩
    rw [pickKeys, List.mem_filterMap]
    exact ⟨k, h1, by rw [h2]; rfl⟩

theorem mem_of_lookup_eq_some (ctx : List (String × JValue)) (k : String) (v : JValue)
    (h : lookup ctx k = some v) : (k, v) ∈ ctx := by
  induction ctx with
  | nil => simp [lookup] at h
  | cons hd tl ih =>
    obtain ⟨k0, v0⟩ := hd
    by_cases hk : k0 = k
    · rw [lookup, if_pos hk] at h
      have hv := Option.some.inj h
      subst hv
      subst hk
      exact List.mem_cons_self _ _
    · rw [lookup, if_neg hk] at h
      exact List.mem_cons_of_mem _ (ih h)

theorem lookup_of_mem_nodup (ctx : List (String × JValue)) (k : String) (v : JValue)
    (hnd : (keys ctx).Nodup) (h : (k, v) ∈ ctx) : lookup ctx k = some v := by
  induction ctx with
  | nil => simp at h
  | cons hd tl ih =>
    obtain ⟨k0, v0⟩ := hd
    rw [keys, List.map_cons, List.nodup_cons] at hnd
    rcases List.mem_cons.mp h with heq | htl
    · rw [Prod.mk.injEq] at heq
      obtain ⟨rfl, rfl⟩ := heq
      rw [lookup, if_pos rfl]
    · by_cases hk : k0 = k
      · exfalso
        apply hnd.1
        rw [hk]
        exact List.mem_map.mpr ⟨(k, v), htl, rfl⟩
      · rw [lookup, if_neg hk]
        exact ih hnd.2 htl

theorem keys_pickKeys (ctx : List (String × JValue)) (ks : List String) :
    keys (pickKeys ctx ks) = ks.filter (fun k => (lookup ctx k).isSome) := by
  induction ks with
  | nil => rfl
  | cons key ks ih =>
    rw [pickKeys_cons, List.filter_cons]
    cases hl : lookup ctx key with
    | none => simpa using ih
    | some v =>
      simp only [Option.isSome_some, if_true, ite_true]
      show key :: keys (pickKeys ctx ks) = key :: ks.filter (fun k => (lookup ctx k).isSome)
      rw [ih]

theorem keys_append (a b : List (String × JValue)) : keys (a ++ b) = keys a ++ keys b :=
  List.map_append _ a b

/-- The three zone key lists, concatenated, have no duplicates. -/
theorem classified_keys_nodup : classified_keys.Nodup := by decide

/-- C8: `apply_recency_bias` is idempotent (same list, same order, applied
twice), and for a genuine dict (no duplicate keys) its output is a
permutation of its input: exactly the same key-value pairs, none dropped,
none added. -/
theorem apply_recency_bias_idempotent_perm (ctx : List (String × JValue)) :
    apply_recency_bias (apply_recency_bias ctx) = apply_recency_bias ctx
    ∧ ((keys ctx).Nodup → List.Perm (apply_recency_bias ctx) ctx) := by
  constructor
  · conv_lhs => rw [apply_recency_bias]
    rw [pickKeys_lookup_eq (apply_recency_bias ctx) ctx (lookup_apply_recency_bias ctx),
        pickKeys_lookup_eq (apply_recency_bias ctx) ctx (lookup_apply_recency_bias ctx),
        pickKeys_lookup_eq (apply_recency_bias ctx) ctx (lookup_apply_recency_bias ctx)]
    have hrest : (apply_recency_bias ctx).filter
        (fun kv => !(classified_keys.contains kv.1))
        = ctx.filter (fun kv => !(classified_keys.contains kv.1)) := by
      rw [apply_recency_bias, List.filter_append, List.filter_append, List.filter_append]
      rw [filter_pickKeys_classified ctx beginning_keys (by decide),
          filter_pickKeys_classified ctx middle_keys (by decide),
          filter_pickKeys_classified ctx end_keys (by decide)]
      rw [List.filter_filter]
      simp
    rw [hrest, apply_recency_bias]
  · intro hnd
    have hctxnd : ctx.Nodup := List.Nodup.of_map Prod.fst hnd
    have hsplit := List.filter_append_perm
      (fun kv => classified_keys.contains kv.1) ctx
    have hpick : List.Perm
        (pickKeys ctx beginning_keys ++ (pickKeys ctx middle_keys ++ pickKeys ctx end_keys))
        (ctx.filter (fun kv => classified_keys.contains kv.1)) := by
      apply List.Subperm.antisymm
      · apply List.Nodup.subperm
        · apply List.Nodup.of_map Prod.fst
          rw [show (pickKeys ctx beginning_keys
                ++ (pickKeys ctx middle_keys ++ pickKeys ctx end_keys)).map Prod.fst
              = keys (pickKeys ctx beginning_keys)
                ++ (keys (pickKeys ctx middle_keys) ++ keys (pickKeys ctx end_keys)) by
              rw [List.map_append, List.map_append]; rfl]
          rw [keys_pickKeys, keys_pickKeys, keys_pickKeys]
          exact List.Nodup.sublist
            (List.Sublist.append (List.filter_sublist _)
              (List.Sublist.append (List.filter_sublist _) (List.filter_sublist _)))
            classified_keys_nodup
        · intro e he
          obtain ⟨k, v⟩ := e
          rw [List.mem_append, List.mem_append] at he
          have hin : k ∈ classified_keys ∧ lookup ctx k = some v := by
            rcases he with h | h | h
            · obtain ⟨h1, h2⟩ := (mem_pickKeys ctx _ k v).mp h
              exact ⟨by rw [classified_keys]
                        exact List.mem_append_left _ (List.mem_append_left _ h1), h2⟩
            · obtain ⟨h1, h2⟩ := (mem_pickKeys ctx _ k v).mp h
              exact ⟨by rw [classified_keys]
                        exact List.mem_append_left _ (List.mem_append_right _ h1), h2⟩
            · obtain ⟨h1, h2⟩ := (mem_pickKeys ctx _ k v).mp h
              exact ⟨by rw [classified_keys]; exact List.mem_append_right _ h1, h2⟩
          refine List.mem_filter.mpr ⟨mem_of_lookup_eq_some ctx k v hin.2, by simp [hin.1]⟩
      · apply List.Nodup.subperm
        · exact List.Nodup.filter _ hctxnd
        · intro e he
          obtain ⟨k, v⟩ := e
          obtain ⟨hmem, hq⟩ := List.mem_filter.mp he
          have hlook : lookup ctx k = some v := lookup_of_mem_nodup ctx k v hnd hmem
          have hcl : k ∈ classified_keys := by simpa using hq
          rw [classified_keys, List.mem_append, List.mem_append] at hcl
          rw [List.mem_append, List.mem_append]
          rcases hcl with (h | h) | h
          · exact Or.inl ((mem_pickKeys ctx _ k v).mpr ⟨h, hlook⟩)
          · exact Or.inr (Or.inl ((mem_pickKeys ctx _ k v).mpr ⟨h, hlook⟩))
          · exact Or.inr (Or.inr ((mem_pickKeys ctx _ k v).mpr ⟨h, hlook⟩))
    have harr : apply_recency_bias ctx
        = (pickKeys ctx beginning_keys
            ++ (pickKeys ctx middle_keys ++ pickKeys ctx end_keys))
          ++ ctx.filter (fun kv => !(classified_keys.contains kv.1)) := by
      rw [apply_recency_bias]
      simp [List.append_assoc]
    rw [harr]
    exact (List.Perm.append hpick (List.Perm.refl _)).trans hsplit

/-- Witness for C8 on a concrete two-field context. -/
theorem apply_recency_bias_idempotent_perm_witness :
    apply_recency_bias (apply_recency_bias
        [("task_id", JValue.str "t"), ("goal", JValue.str "g")])
      = apply_recency_bias [("task_id", JValue.str "t"), ("goal", JValue.str "g")]
    ∧ List.Perm
        (apply_recency_bias [("task_id", JValue.str "t"), ("goal", JValue.str "g")])
        [("task_id", JValue.str "t"), ("goal", JValue.str "g")] :=
  ⟨(apply_recency_bias_idempotent_perm _).1,
   (apply_recency_bias_idempotent_perm _).2 (by decide)⟩

/-! ## C4: compaction never drops a rule-matched field -/

theorem ruleStep_preserves (ctx acc : List (String × JValue)) (rule : PreservationRule)
    (k : String) (h : (lookup acc k).isSome) :
    (lookup (ruleStep ctx acc rule) k).isSome := by
  rw [ruleStep]
  cases hl : lookup ctx rule.pattern with
  | none => exact h
  | some v => exact lookup_isSome_dictInsert acc k rule.pattern _ h

theorem foldl_ruleStep_preserves (ctx : List (String × JValue))
    (rules : List PreservationRule) (acc : List (String × JValue)) (k : String)
    (h : (lookup acc k).isSome) :
    (lookup (rules.foldl (ruleStep ctx) acc) k).isSome := by
  induction rules generalizing acc with
  | nil => exact h
  | cons r rs ih =>
    rw [List.foldl_cons]
    exact ih _ (ruleStep_preserves ctx acc r k h)

theorem foldl_ruleStep_mem (ctx : List (String × JValue))
    (rules : List PreservationRule) (acc : List (String × JValue))
    (rule : PreservationRule) (hr : rule ∈ rules)
    (hp : (lookup ctx rule.pattern).isSome) :
    (lookup (rules.foldl (ruleStep ctx) acc) rule.pattern).isSome := by
  induction rules generalizing acc with
  | nil => simp at hr
  | cons r rs ih =>
    rw [List.foldl_cons]
    rcases List.mem_cons.mp hr with heq | htl
    · subst heq
      apply foldl_ruleStep_preserves
      rw [ruleStep]
      cases hl : lookup ctx rule.pattern with
      | none => rw [hl] at hp; simp at hp
      | some v => rw [lookup_dictInsert_self]; rfl
    · exact ih _ htl

theorem copyFieldStep_preserves (ctx acc : List (String × JValue)) (f k : String)
    (h : (lookup acc k).isSome) :
    (lookup (copyFieldStep ctx acc f) k).isSome := by
  rw [copyFieldStep]
  cases hl : lookup ctx f with
  | none => exact h
  | some v => exact lookup_isSome_dictInsert acc k f _ h

theorem foldl_copyFieldStep_preserves (ctx : List (String × JValue))
    (fs : List String) (acc : List (String × JValue)) (k : String)
    (h : (lookup acc k).isSome) :
    (lookup (fs.foldl (copyFieldStep ctx) acc) k).isSome := by
  induction fs generalizing acc with
  | nil => exact h
  | cons f fs ih =>
    rw [List.foldl_cons]
    exact ih _ (copyFieldStep_preserves ctx acc f k h)

theorem foldl_copyFieldStep_mem (ctx : List (String × JValue))
    (fs : List String) (acc : List (String × JValue)) (f : String) (hf : f ∈ fs)
    (hp : (lookup ctx f).isSome) :
    (lookup (fs.foldl (copyFieldStep ctx) acc) f).isSome := by
  induction fs generalizing acc with
  | nil => simp at hf
  | cons g gs ih =>
    rw [List.foldl_cons]
    rcases List.mem_cons.mp hf with heq | htl
    · subst heq
      apply foldl_copyFieldStep_preserves
      rw [copyFieldStep]
      cases hl : lookup ctx f with
      | none => rw [hl] at hp; simp at hp
      | some v => rw [lookup_dictInsert_self]; rfl
    · exact ih _ htl

theorem compact_c2_preserves (ctx : List (String × JValue)) (k : String)
    (h : (lookup (compact_c1 ctx) k).isSome) :
    (lookup (compact_c2 ctx) k).isSome := by
  rw [compact_c2]
  cases hl : lookup ctx "code_files" with
  | none => exact h
  | some v => exact lookup_isSome_dictInsert _ k _ _ h

theorem compact_c3_preserves (ctx : List (String × JValue)) (k : String)
    (h : (lookup (compact_c2 ctx) k).isSome) :
    (lookup (compact_c3 ctx) k).isSome := by
  rw [compact_c3]
  cases hl : lookup ctx "test_results" with
  | none => exact h
  | some v => exact lookup_isSome_dictInsert _ k _ _ h

theorem compact_preserves_of_c1 (ctx : List (String × JValue)) (k : String)
    (h : (lookup (compact_c1 ctx) k).isSome) :
    (lookup (compact ctx) k).isSome := by
  rw [compact]
  apply lookup_isSome_dictInsert
  rw [compact_c4]
  exact foldl_copyFieldStep_preserves ctx small_fields _ k
    (compact_c3_preserves ctx k (compact_c2_preserves ctx k h))

/-- C4: every `PreservationRule` whose pattern names a field present in `ctx`
has that field present (possibly truncated) in `compact ctx`; in particular
the task identifier and the goal are never dropped when present. -/
theorem compact_preserves_fields (ctx : List (String × JValue)) :
    (∀ rule ∈ preservation_rules, (lookup ctx rule.pattern).isSome →
      (lookup (compact ctx) rule.pattern).isSome)
    ∧ ((lookup ctx "task_id").isSome → (lookup (compact ctx) "task_id").isSome)
    ∧ ((lookup ctx "goal").isSome → (lookup (compact ctx) "goal").isSome) := by
  have hrules : ∀ rule ∈ preservation_rules, (lookup ctx rule.pattern).isSome →
      (lookup (compact ctx) rule.pattern).isSome := by
    intro rule hr hp
    apply compact_preserves_of_c1
    rw [compact_c1]
    apply foldl_ruleStep_mem
    · rw [sortRulesDesc_preservation_rules]
      exact hr
    · exact hp
  refine ⟨hrules, ?_, ?_⟩
  · intro hp
    rw [compact]
    apply lookup_isSome_dictInsert
    rw [compact_c4]
    exact foldl_copyFieldStep_mem ctx small_fields _ "task_id" (by decide) hp
  · intro hp
    exact hrules ⟨"goal", "goal", 100, 300⟩ (by decide) hp

/-- Witness for C4 on a concrete context holding a task id and a goal. -/
theorem compact_preserves_fields_witness :
    (lookup (compact [("task_id", JValue.str "t"), ("goal", JValue.str "g")])
      "goal").isSome
    ∧ (lookup (compact [("task_id", JValue.str "t"), ("goal", JValue.str "g")])
      "task_id").isSome :=
  ⟨(compact_preserves_fields _).2.2 (by rfl),
   (compact_preserves_fields _).2.1 (by rfl)⟩

/-! ## Execution hooks (`src/utils/execution_hooks.py`) -/

/-- `HookPhase` enum. -/
inductive HookPhase where
  | PRE_EXECUTION
  | POST_EXECUTION
deriving DecidableEq, Repr

/-- `HookResult` enum. -/
inductive HookResult where
  | ALLOW
  | BLOCK
  | MODIFY
  | WARN
  | REQUIRE_APPROVAL
deriving DecidableEq, Repr

/-- `HookContext` dataclass; `content` is `Any` in the source (and `None`
is a possible value after a MODIFY with no `modified_content`), hence
`Option JValue`. -/
structure HookContext where
  operation : String
  agent_type : String
  iteration : Nat
  target : String
  content : Option JValue
  metadata : List (String × JValue)

/-- `HookResponse` dataclass. -/
structure HookResponse where
  result : HookResult
  message : String := ""
  modified_content : Option JValue := none
  blocked_reason : Option String := none
  warnings : List String := []

/-- An `ExecutionHook`: name, phase, priority, enabled flag, predicate and
body. `execute` may raise (modelled by `Except.error`), which the registry
logs and treats as a continue. -/
structure ExecutionHook where
  name : String
  phase : HookPhase
  priority : Nat
  enabled : Bool := true
  should_run : HookContext → Bool
  execute : HookContext → Except String HookResponse

/-- State of the `_execute_hooks` loop: either still iterating or stopped
early by a BLOCK/REQUIRE_APPROVAL. The `log` component records the names of
hooks whose `execute` ran to completion, mirroring `self._execution_log`
(lines 422-429: a hook that raises appends no entry). -/
inductive PipeOutcome where
  | going (ctx : HookContext) (warnings : List String) (log : List String)
  | stopped (result : HookResult) (ctx : HookContext)
      (warnings : List String) (log : List String)

/-- One iteration of the `for hook in self.hooks` loop of `_execute_hooks`
(lines 412-471). -/
def hookStep (phase : HookPhase) (o : PipeOutcome) (hook : ExecutionHook) :
    PipeOutcome :=
  match o with
  | .stopped r c w l => .stopped r c w l
  | .going ctx ws log =>
    if ¬ (hook.enabled = true ∧ hook.phase = phase) then .going ctx ws log
    else if hook.should_run ctx = false then .going ctx ws log
    else
      match hook.execute ctx with
      | .error _ => .going ctx ws log
      | .ok resp =>
        let log2 := log ++ [hook.name]
        let ws2 := ws ++ resp.warnings
          ++ (if resp.message ≠ "" then ["[" ++ hook.name ++ "] " ++ resp.message]
              else [])
        match resp.result with
        | .BLOCK => .stopped .BLOCK ctx ws2 log2
        | .REQUIRE_APPROVAL => .stopped .REQUIRE_APPROVAL ctx ws2 log2
        | .MODIFY => .going { ctx with content := resp.modified_content } ws2 log2
        | _ => .going ctx ws2 log2

/-- `HookRegistry._execute_hooks` (lines 403-472): iterate the hooks, return
`(result, context, warnings)` plus the execution-log names. -/
def _execute_hooks (phase : HookPhase) (hooks : List ExecutionHook)
    (context : HookContext) :
    HookResult × HookContext × List String × List String :=
  match hooks.foldl (hookStep phase) (.going context [] []) with
  | .going ctx ws log => (.ALLOW, ctx, ws, log)
  | .stopped r ctx ws log => (r, ctx, ws, log)

/-- `HookRegistry.execute_pre_hooks` (lines 375-387). -/
def execute_pre_hooks (hooks : List ExecutionHook) (context : HookContext) :
    HookResult × HookContext × List String × List String :=
  _execute_hooks .PRE_EXECUTION hooks context

/-- `HookRegistry.execute_post_hooks` (lines 389-401). -/
def execute_post_hooks (hooks : List ExecutionHook) (context : HookContext) :
    HookResult × HookContext × List String × List String :=
  _execute_hooks .POST_EXECUTION hooks context

/-- Stable ascending insertion by priority: skips the hooks of strictly
smaller priority, so equal priorities keep their existing relative order. -/
def insertHookAsc (h : ExecutionHook) : List ExecutionHook → List ExecutionHook
  | [] => [h]
  | y :: ys => if y.priority < h.priority then y :: insertHookAsc h ys
               else h :: y :: ys

/-- Model of Python's stable `list.sort(key=lambda h: h.priority)`. -/
def sortHooksAsc : List ExecutionHook → List ExecutionHook
  | [] => []
  | x :: xs => insertHookAsc x (sortHooksAsc xs)

/-- `HookRegistry.register` (lines 353-357): append, then stable-sort by
priority ascending. -/
def register (hooks : List ExecutionHook) (hook : ExecutionHook) :
    List ExecutionHook :=
  sortHooksAsc (hooks ++ [hook])

theorem foldl_hookStep_stopped (phase : HookPhase) (hooks : List ExecutionHook)
    (r : HookResult) (c : HookContext) (w l : List String) :
    hooks.foldl (hookStep phase) (.stopped r c w l) = .stopped r c w l := by
  induction hooks with
  | nil => rfl
  | cons h t ih => rw [List.foldl_cons]; exact ih

theorem hookStep_result_invariant (phase : HookPhase) (o : PipeOutcome)
    (hook : ExecutionHook)
    (h : ∀ r c w l, o = .stopped r c w l →
      r = HookResult.BLOCK ∨ r = HookResult.REQUIRE_APPROVAL) :
    ∀ r c w l, hookStep phase o hook = .stopped r c w l →
      r = HookResult.BLOCK ∨ r = HookResult.REQUIRE_APPROVAL := by
  intro r c w l hstep
  match o with
  | .stopped r0 c0 w0 l0 =>
      rw [hookStep] at hstep
      obtain ⟨h1, h2, h3, h4⟩ := PipeOutcome.stopped.inj hstep
      subst h1; subst h2; subst h3; subst h4
      exact h _ _ _ _ rfl
  | .going ctx ws log =>
      rw [hookStep] at hstep
      by_cases hen : hook.enabled = true ∧ hook.phase = phase
      · rw [if_neg (by simpa using hen)] at hstep
        by_cases hrun : hook.should_run ctx = false
        · rw [if_pos hrun] at hstep
          exact absurd hstep (by intro hh; cases hh)
        · rw [if_neg hrun] at hstep
          cases hex : hook.execute ctx with
          | error e =>
            rw [hex] at hstep
            exact absurd hstep (by intro hh; cases hh)
          | ok resp =>
            rw [hex] at hstep
            cases hres : resp.result with
            | ALLOW => simp only [hres] at hstep; exact absurd hstep (by simp)
            | WARN => simp only [hres] at hstep; exact absurd hstep (by simp)
            | MODIFY => simp only [hres] at hstep; exact absurd hstep (by simp)
            | BLOCK =>
              simp only [hres] at hstep
              obtain ⟨h1, h2, h3, h4⟩ := PipeOutcome.stopped.inj hstep
              exact Or.inl h1.symm
            | REQUIRE_APPROVAL =>
              simp only [hres] at hstep
              obtain ⟨h1, h2, h3, h4⟩ := PipeOutcome.stopped.inj hstep
              exact Or.inr h1.symm
      · rw [if_pos (by simpa using hen)] at hstep
        exact absurd hstep (by intro hh; cases hh)

theorem foldl_hookStep_invariant (phase : HookPhase) (hooks : List ExecutionHook) :
    ∀ (o : PipeOutcome),
    (∀ r c w l, o = .stopped r c w l →
      r = HookResult.BLOCK ∨ r = HookResult.REQUIRE_APPROVAL) →
    ∀ r c w l, hooks.foldl (hookStep phase) o = .stopped r c w l →
      r = HookResult.BLOCK ∨ r = HookResult.REQUIRE_APPROVAL := by
  induction hooks with
  | nil => intro o h r c w l hh; exact h r c w l hh
  | cons hk t ih =>
    intro o h r c w l hh
    rw [List.foldl_cons] at hh
    exact ih _ (hookStep_result_invariant phase o hk h) r c w l hh

/-- C10: for every registry and context, the overall result of
`execute_pre_hooks`/`execute_post_hooks` is ALLOW, BLOCK or
REQUIRE_APPROVAL, never MODIFY or WARN; moreover a WARN response only
extends the warnings list (the working context is unchanged) and a MODIFY
response only rewrites the working context content passed to later hooks. -/
theorem execute_hooks_result_invariant (phase : HookPhase)
    (hooks : List ExecutionHook) (context : HookContext) :
    ((_execute_hooks phase hooks context).1 = HookResult.ALLOW
      ∨ (_execute_hooks phase hooks context).1 = HookResult.BLOCK
      ∨ (_execute_hooks phase hooks context).1 = HookResult.REQUIRE_APPROVAL)
    ∧ (∀ (ctx : HookContext) (ws log : List String) (hook : ExecutionHook)
        (resp : HookResponse),
        hook.enabled = true → hook.phase = phase → hook.should_run ctx = true →
        hook.execute ctx = .ok resp → resp.result = HookResult.WARN →
        hookStep phase (.going ctx ws log) hook
          = .going ctx
              (ws ++ resp.warnings
                ++ (if resp.message ≠ ""
                    then ["[" ++ hook.name ++ "] " ++ resp.message] else []))
              (log ++ [hook.name]))
    ∧ (∀ (ctx : HookContext) (ws log : List String) (hook : ExecutionHook)
        (resp : HookResponse),
        hook.enabled = true → hook.phase = phase → hook.should_run ctx = true →
        hook.execute ctx = .ok resp → resp.result = HookResult.MODIFY →
        hookStep phase (.going ctx ws log) hook
          = .going { ctx with content := resp.modified_content }
              (ws ++ resp.warnings
                ++ (if resp.message ≠ ""
                    then ["[" ++ hook.name ++ "] " ++ resp.message] else []))
              (log ++ [hook.name])) := by
  refine ⟨?_, ?_, ?_⟩
  · rw [_execute_hooks]
    cases hfold : hooks.foldl (hookStep phase) (.going context [] []) with
    | going ctx ws log => simp
    | stopped r ctx ws log =>
      simp only
      rcases foldl_hookStep_invariant phase hooks _
        (by intro r c w l hh; cases hh) r ctx ws log hfold with h | h
      · exact Or.inr (Or.inl h)
      · exact Or.inr (Or.inr h)
  · intro ctx ws log hook resp hen hph hrun hex hres
    rw [hookStep, if_neg (by simp [hen, hph]), if_neg (by simp [hrun]), hex]
    simp [hres]
  · intro ctx ws log hook resp hen hph hrun hex hres
    rw [hookStep, if_neg (by simp [hen, hph]), if_neg (by simp [hrun]), hex]
    simp [hres]

/-- C5: if the hooks processed so far left the pipeline going with working
context `ctx1`, warnings `ws1` and execution log `log1`, and the next hook
`b` is applicable and returns BLOCK, then `_execute_hooks` returns BLOCK
with exactly that working context and those warnings (plus the blocking
hook's own), and the execution log ends at `b` — no hook in `rest` is ever
executed. -/
theorem execute_hooks_block_short_circuit (phase : HookPhase)
    (context : HookContext) (pre rest : List ExecutionHook) (b : ExecutionHook)
    (ctx1 : HookContext) (ws1 log1 : List String)
    (hpre : pre.foldl (hookStep phase) (.going context [] []) = .going ctx1 ws1 log1)
    (hen : b.enabled = true) (hph : b.phase = phase)
    (hrun : b.should_run ctx1 = true)
    (resp : HookResponse) (hexec : b.execute ctx1 = .ok resp)
    (hres : resp.result = HookResult.BLOCK) :
    _execute_hooks phase (pre ++ b :: rest) context
      = (HookResult.BLOCK, ctx1,
         ws1 ++ resp.warnings
           ++ (if resp.message ≠ "" then ["[" ++ b.name ++ "] " ++ resp.message]
               else []),
         log1 ++ [b.name]) := by
  rw [_execute_hooks, List.foldl_append, hpre, List.foldl_cons]
  have hstep : hookStep phase (.going ctx1 ws1 log1) b
      = .stopped .BLOCK ctx1
          (ws1 ++ resp.warnings
            ++ (if resp.message ≠ "" then ["[" ++ b.name ++ "] " ++ resp.message]
                else []))
          (log1 ++ [b.name]) := by
    rw [hookStep, if_neg (by simp [hen, hph]), if_neg (by simp [hrun]), hexec]
    simp [hres]
  rw [hstep, foldl_hookStep_stopped]

/-- A concrete always-applicable PRE hook that allows (priority 10). -/
def hookA : ExecutionHook :=
  ⟨"A", .PRE_EXECUTION, 10, true, fun _ => true,
    fun _ => .ok ⟨.ALLOW, "", none, none, []⟩⟩

/-- A concrete always-applicable PRE hook that blocks (priority 20). -/
def hookB : ExecutionHook :=
  ⟨"B", .PRE_EXECUTION, 20, true, fun _ => true,
    fun _ => .ok ⟨.BLOCK, "b", none, some "r", []⟩⟩

/-- A concrete always-applicable PRE hook that blocks (priority 30); it must
never run in the C5 scenario. -/
def hookC : ExecutionHook :=
  ⟨"C", .PRE_EXECUTION, 30, true, fun _ => true,
    fun _ => .ok ⟨.BLOCK, "", none, none, []⟩⟩

/-- A concrete always-applicable PRE hook that warns (priority 20). -/
def hookW : ExecutionHook :=
  ⟨"W", .PRE_EXECUTION, 20, true, fun _ => true,
    fun _ => .ok ⟨.WARN, "w", none, none, ["t"]⟩⟩

/-- A concrete always-applicable PRE hook that modifies the content
(priority 30). -/
def hookM : ExecutionHook :=
  ⟨"M", .PRE_EXECUTION, 30, true, fun _ => true,
    fun _ => .ok ⟨.MODIFY, "", some (.str "x"), none, []⟩⟩

/-- A concrete hook context for the pipeline scenarios. -/
def hookCtx0 : HookContext :=
  ⟨"execute_command", "tester", 1, "shell", some (.str "ls"), []⟩

/-- Witness for C5: with hooks `[A(10, ALLOW), B(20, BLOCK), C(30, BLOCK)]`,
`execute_pre_hooks` stops at B with BLOCK; the execution log is exactly
`[A, B]`, so C's `execute` never ran. -/
theorem execute_hooks_block_short_circuit_witness :
    _execute_hooks .PRE_EXECUTION [hookA, hookB, hookC] hookCtx0
      = (HookResult.BLOCK, hookCtx0, ["[B] b"], ["A", "B"]) :=
  execute_hooks_block_short_circuit .PRE_EXECUTION hookCtx0 [hookA] [hookC] hookB
    hookCtx0 [] ["A"] rfl rfl rfl rfl ⟨.BLOCK, "b", none, some "r", []⟩ rfl rfl

/-- Witness for C10 on concrete WARN and MODIFY hooks. -/
theorem execute_hooks_result_invariant_witness :
    ((_execute_hooks .PRE_EXECUTION [hookW, hookM] hookCtx0).1 = HookResult.ALLOW
      ∨ (_execute_hooks .PRE_EXECUTION [hookW, hookM] hookCtx0).1 = HookResult.BLOCK
      ∨ (_execute_hooks .PRE_EXECUTION [hookW, hookM] hookCtx0).1
          = HookResult.REQUIRE_APPROVAL)
    ∧ hookStep .PRE_EXECUTION (.going hookCtx0 [] []) hookW
        = .going hookCtx0 ["t", "[W] w"] ["W"]
    ∧ hookStep .PRE_EXECUTION (.going hookCtx0 [] []) hookM
        = .going { hookCtx0 with content := some (.str "x") } [] ["M"] :=
  ⟨(execute_hooks_result_invariant .PRE_EXECUTION [hookW, hookM] hookCtx0).1,
   (execute_hooks_result_invariant .PRE_EXECUTION [hookW, hookM] hookCtx0).2.1
     hookCtx0 [] [] hookW ⟨.WARN, "w", none, none, ["t"]⟩ rfl rfl rfl rfl rfl,
   (execute_hooks_result_invariant .PRE_EXECUTION [hookW, hookM] hookCtx0).2.2
     hookCtx0 [] [] hookM ⟨.MODIFY, "", some (.str "x"), none, []⟩ rfl rfl rfl rfl rfl⟩

/-! ## Failure analyzer (`src/memory/failure_analyzer.py`) -/

/-- Does `needle` occur at the start of `haystack`? -/
def startsWithChars : List Char → List Char → Bool
  | [], _ => true
  | _ :: _, [] => false
  | a :: as, b :: bs => a = b && startsWithChars as bs

/-- Python `needle in haystack` on character lists. -/
def containsChars : List Char → List Char → Bool
  | needle, [] => needle.isEmpty
  | needle, c :: rest => startsWithChars needle (c :: rest) || containsChars needle rest

/-- Python `needle in haystack` for strings. -/
def pyContains (needle haystack : String) : Bool :=
  containsChars needle.data haystack.data

/-- `FailureAnalyzer.COMMON_ERROR_TYPES` (lines 135-152), in source order. -/
def COMMON_ERROR_TYPES : List String :=
  [ "ImportError", "ModuleNotFoundError", "AttributeError", "TypeError",
    "ValueError", "KeyError", "IndexError", "NameError", "RuntimeError",
    "SyntaxError", "IndentationError", "FileNotFoundError", "AssertionError",
    "TimeoutError", "MemoryError", "RecursionError" ]

/-- `FailureAnalyzer._extract_error_type` (lines 341-353): first matching
well-known token, else `UnknownError`. -/
def _extract_error_type (error_text : String) : String :=
  match COMMON_ERROR_TYPES.find? (fun et => pyContains et error_text) with
  | some et => et
  | none => "UnknownError"

/-- The apostrophe character. -/
def sqChar : Char := '\''

/-- Consume one-or-more leading decimal digits; `none` if there is none
(the `\d+` at the end of the first signature regex, greedy). -/
def matchDigits : List Char → Option (List Char)
  | c :: rest => if c.isDigit then some (rest.dropWhile Char.isDigit) else none
  | [] => none

/-- Backtracking search completing `.*?", line \d+` from the given suffix:
grow the lazy dot (which cannot cross a newline) until `", line ` plus
digits matches, returning the suffix after the match. -/
def findCommaLine : List Char → Option (List Char)
  | [] => none
  | c :: rest =>
    match
      (if startsWithChars ("\", line ").data (c :: rest) then
        matchDigits (List.drop 8 (c :: rest))
      else none) with
    | some rest2 => some rest2
    | none => if c = '\n' then none else findCommaLine rest

/-- `re.sub(r'File ".*?", line \d+', "", line)`: replace every
non-overlapping leftmost match with the empty string (fuel-driven scan). -/
def subFileLineAux : Nat → List Char → List Char
  | 0, cs => cs
  | _ + 1, [] => []
  | fuel + 1, c :: rest =>
    match
      (if startsWithChars ("File \"").data (c :: rest) then
        findCommaLine (List.drop 6 (c :: rest))
      else none) with
    | some rest2 => subFileLineAux fuel rest2
    | none => c :: subFileLineAux fuel rest

/-- First regex substitution of `_create_error_signature` (line 368). -/
def pySubFileLine (s : String) : String :=
  String.mk (subFileLineAux s.data.length s.data)

/-- Position after the next apostrophe, if any (the `[^']*?'` tail of the
second signature regex). -/
def findQuote : List Char → Option (List Char)
  | [] => none
  | c :: rest => if c = sqChar then some rest else findQuote rest

/-- `re.sub(r"'[^']*?'", "'X'", s)`: replace every quoted literal with a
placeholder (fuel-driven scan). -/
def subQuotedAux : Nat → List Char → List Char
  | 0, cs => cs
  | _ + 1, [] => []
  | fuel + 1, c :: rest =>
    if c = sqChar then
      match findQuote rest with
      | some rest2 => sqChar :: 'X' :: sqChar :: subQuotedAux fuel rest2
      | none => c :: subQuotedAux fuel rest
    else c :: subQuotedAux fuel rest

/-- Second regex substitution of `_create_error_signature` (line 369). -/
def pySubQuoted (s : String) : String :=
  String.mk (subQuotedAux s.data.length s.data)

/-- Python `str.strip()`. -/
def pyStrip (s : String) : String :=
  String.mk (((s.data.dropWhile Char.isWhitespace).reverse.dropWhile
    Char.isWhitespace).reverse)

/-- `FailureAnalyzer._create_error_signature` (lines 355-377). -/
def _create_error_signature (error_text error_type : String) : String :=
  let lines := pySplitLines error_text
  match lines.find? (fun line => pyContains error_type line) with
  | some line => pyStrip (pySubQuoted (pySubFileLine line))
  | none =>
    match lines.find? (fun line => pyStrip line ≠ "") with
    | some line =>
        error_type ++ ": " ++ String.mk ((pyStrip line).data.take 100)
    | none => error_type ++ ": Unknown error"

mutual
/-- Python `str(v)` for the values the analyzer handles. -/
def pyStr : JValue → String
  | .str s => s
  | .null => "None"
  | .bool b => if b then "True" else "False"
  | .num n => toString n
  | .arr es => "[" ++ pyReprArr es ++ "]"
  | .obj fs => "\x7b" ++ pyReprObj fs ++ "\x7d"

/-- Python `repr(v)` (used by `str` on container elements). -/
def pyRepr : JValue → String
  | .str s => String.singleton sqChar ++ s ++ String.singleton sqChar
  | .null => "None"
  | .bool b => if b then "True" else "False"
  | .num n => toString n
  | .arr es => "[" ++ pyReprArr es ++ "]"
  | .obj fs => "\x7b" ++ pyReprObj fs ++ "\x7d"

/-- Comma-separated reprs of list elements. -/
def pyReprArr : List JValue → String
  | [] => ""
  | [v] => pyRepr v
  | v :: rest => pyRepr v ++ ", " ++ pyReprArr rest

/-- Comma-separated `key: value` reprs of dict items. -/
def pyReprObj : List (String × JValue) → String
  | [] => ""
  | [(k, v)] => String.singleton sqChar ++ k ++ String.singleton sqChar
      ++ ": " ++ pyRepr v
  | (k, v) :: rest => String.singleton sqChar ++ k ++ String.singleton sqChar
      ++ ": " ++ pyRepr v ++ ", " ++ pyReprObj rest
end

/-- `dict.get(key)` with Python's `None` default. -/
def pyGet (d : List (String × JValue)) (k : String) : JValue :=
  match lookup d k with
  | some v => v
  | none => .null

/-- Python `a or b`. -/
def pyOr (a b : JValue) : JValue := if truthy a then a else b

/-- `FailureInfo` dataclass. -/
structure FailureInfo where
  error_message : String
  error_type : String
  error_signature : String
  stack_trace : String
deriving DecidableEq, Repr

/-- `FailureAnalyzer.extract` (lines 174-201). -/
def extract (test_results : List (String × JValue)) : Option FailureInfo :=
  let error_message0 := pyOr (pyGet test_results "error_message")
    (pyGet test_results "stderr")
  let stack_trace := pyOr (pyGet test_results "stack_trace")
    (pyOr (pyGet test_results "stderr") (.str ""))
  let error_message :=
    if truthy error_message0 then error_message0
    else
      let raw := pyGet test_results "test_results"
      if truthy raw then .str (pyStr raw) else .str ""
  if truthy error_message = false then none
  else
    let et := _extract_error_type (pyStr error_message)
    some ⟨pyStr error_message, et,
      _create_error_signature (pyStr error_message) et, pyStr stack_trace⟩

/-- The C9 input text:
`File "/a/b.py", line 12, in f` newline `  KeyError: 'secret_key'`. -/
def c9_input : String :=
  "File \"/a/b.py\", line 12, in f\n  KeyError: "
    ++ String.singleton sqChar ++ "secret_key" ++ String.singleton sqChar

/-- C9: on the quoted KeyError traceback, `extract` reports error type
`KeyError` with a signature that contains neither the file path nor the
line number nor the quoted literal (replaced by the placeholder `X`); and
when the error message, stderr and raw-results fields are all empty,
`extract` returns `none`. -/
theorem failure_analyzer_extract_spec :
    extract [("error_message", .str c9_input)]
      = some ⟨c9_input, "KeyError",
          "KeyError: " ++ String.singleton sqChar ++ "X" ++ String.singleton sqChar,
          ""⟩
    ∧ (pyContains "/a/b.py"
        ((extract [("error_message", .str c9_input)]).elim "" FailureInfo.error_signature)
        = false)
    ∧ (pyContains "line 12"
        ((extract [("error_message", .str c9_input)]).elim "" FailureInfo.error_signature)
        = false)
    ∧ (pyContains "secret_key"
        ((extract [("error_message", .str c9_input)]).elim "" FailureInfo.error_signature)
        = false)
    ∧ extract [("error_message", .str ""), ("stderr", .str ""),
        ("test_results", .str "")] = none := by
  refine ⟨by decide, by decide, by decide, by decide, by decide⟩

/-! ## Orchestrator (`src/orchestrator.py`)

The agents are external collaborators: each is an abstract function from the
shared context to a result dictionary, raising modelled as `Except.error`.
Database writes, metrics and logging are effects the control flow never
reads back; the per-iteration records created through
`db.create_iteration(task_id, n, state)` (line 257) are kept as the `trace`
of `(iteration, phase)` pairs. The pre-iteration hook invocation (lines
233-245) binds `hook_result, _, warnings` and only logs the warnings, so it
cannot influence the loop and is elided from the state. -/

/-- `OrchestrationState` enum (lines 44-55). -/
inductive OrchestrationState where
  | INIT
  | PLANNING
  | CODING
  | REVIEWING
  | AUDITING
  | TESTING
  | REFLECTING
  | SUCCESS
  | FAILED
  | PAUSED
deriving DecidableEq, Repr

/-- An agent `execute`: context in, result dict out, may raise. -/
def AgentFn : Type :=
  List (String × JValue) → Except String (List (String × JValue))

/-- `dict.get(key, default)`. -/
def pyGetD (d : List (String × JValue)) (k : String) (dflt : JValue) : JValue :=
  match lookup d k with
  | some v => v
  | none => dflt

/-- The orchestrator configuration relevant to the loop: bounds, optional
phases, hygiene thresholds, circuit breaker and the six agents. -/
structure OrchConfig where
  max_iterations : Nat := 15
  enable_code_review : Bool := false
  enable_security_audit : Bool := false
  thresholds : ContextThresholds := {}
  circuit_breaker : CircuitBreaker := ⟨12, 15, false⟩
  planner : AgentFn
  coder : AgentFn
  tester : AgentFn
  reflector : AgentFn
  code_reviewer : AgentFn
  security_auditor : AgentFn

/-- The mutable orchestrator state threaded through the loop. -/
structure OrchSt where
  state : OrchestrationState
  current_iteration : Nat
  context : List (String × JValue)
  circuit_breaker : CircuitBreaker
  trace : List (Nat × OrchestrationState)

/-- `Orchestrator._manage_context_hygiene` (lines 340-361): analyze, compact
when CRITICAL/OVERFLOW, then always apply recency bias. -/
def manage_context_hygiene (thresholds : ContextThresholds)
    (ctx : List (String × JValue)) : List (String × JValue) :=
  let snapshot := analyze thresholds ctx
  let ctx2 :=
    if snapshot.status = ContextHealthStatus.CRITICAL
        ∨ snapshot.status = ContextHealthStatus.OVERFLOW then compact ctx
    else ctx
  apply_recency_bias ctx2

/-- `Orchestrator._execute_planning_phase` (lines 363-384). The returned
context reflects the mutations made before a raise (Python mutates
`self.context` in place); `result['plan']` raises `KeyError` when absent. -/
def execute_planning_phase (planner : AgentFn) (n : Nat)
    (ctx : List (String × JValue)) :
    List (String × JValue) × Except String Bool :=
  let ctx1 := dictInsert ctx "iteration" (.num n)
  match planner ctx1 with
  | .error e => (ctx1, .error e)
  | .ok result =>
    match lookup result "plan" with
    | none => (ctx1, .error "KeyError")
    | some plan =>
      let ctx2 := dictInsert ctx1 "plan" plan
      let ctx3 := dictInsert ctx2 "subtasks" (pyGetD result "subtasks" (.arr []))
      let ctx4 := dictInsert ctx3 "dependencies"
        (pyGetD result "dependencies" (.arr []))
      (ctx4, .ok true)

/-- `Orchestrator._execute_coding_phase` (lines 386-414): `result['code_files']`
raises when absent, and iterating `.items()` of a non-dict raises after the
context mutations. -/
def execute_coding_phase (coder : AgentFn) (ctx : List (String × JValue)) :
    List (String × JValue) × Except String Bool :=
  match coder ctx with
  | .error e => (ctx, .error e)
  | .ok result =>
    match lookup result "code_files" with
    | none => (ctx, .error "KeyError")
    | some cf =>
      let ctx2 := dictInsert ctx "code_files" cf
      let ctx3 := dictInsert ctx2 "workspace" (pyGetD result "workspace" .null)
      match cf with
      | .obj _ => (ctx3, .ok true)
      | _ => (ctx3, .error "AttributeError")

/-- `Orchestrator._execute_testing_phase` (lines 416-454): stores the whole
result as `test_results` and returns `result.get('passed', False)` (used for
its truthiness by the caller). -/
def execute_testing_phase (tester : AgentFn) (ctx : List (String × JValue)) :
    List (String × JValue) × Except String Bool :=
  match tester ctx with
  | .error e => (ctx, .error e)
  | .ok result =>
    let ctx2 := dictInsert ctx "test_results" (.obj result)
    (ctx2, .ok (truthy (pyGetD result "passed" (.bool false))))

/-- `Orchestrator._execute_reflection_phase` (lines 456-515): sets
`current_agent` and `iteration` before the agent call (these mutations
survive a raise), then stores `root_cause` as `previous_errors`. The
vector-store and structured-log side effects are not read back by the loop. -/
def execute_reflection_phase (reflector : AgentFn) (n : Nat)
    (ctx : List (String × JValue)) :
    List (String × JValue) × Except String Bool :=
  let ctx1 := dictInsert ctx "current_agent" (.str "reflector")
  let ctx2 := dictInsert ctx1 "iteration" (.num n)
  match reflector ctx2 with
  | .error e => (ctx2, .error e)
  | .ok result =>
    let ctx3 := dictInsert ctx2 "previous_errors" (pyGetD result "root_cause" (.str ""))
    (ctx3, .ok true)

/-- `Orchestrator._execute_review_phase` (lines 517-544); the review object
is modelled as a dict whose `has_critical_issues` field holds the dataclass
attribute of the same name. -/
def execute_review_phase (cfg : OrchConfig) (ctx : List (String × JValue)) :
    List (String × JValue) × Except String Bool :=
  if cfg.enable_code_review = false then (ctx, .ok true)
  else
    let ctx1 := dictInsert ctx "current_agent" (.str "code_reviewer")
    match cfg.code_reviewer ctx1 with
    | .error e => (ctx1, .error e)
    | .ok result =>
      let review := pyGetD result "review" .null
      let critical :=
        truthy review
          && (match review with
              | .obj fs => truthy (pyGetD fs "has_critical_issues" (.bool false))
              | _ => false)
      if critical then
        (dictInsert ctx1 "code_review_feedback" (pyGetD result "review_xml" (.str "")),
         .ok true)
      else (ctx1, .ok true)

/-- `Orchestrator._execute_audit_phase` (lines 546-574), modelled like the
review phase. -/
def execute_audit_phase (cfg : OrchConfig) (ctx : List (String × JValue)) :
    List (String × JValue) × Except String Bool :=
  if cfg.enable_security_audit = false then (ctx, .ok true)
  else
    let ctx1 := dictInsert ctx "current_agent" (.str "security_auditor")
    match cfg.security_auditor ctx1 with
    | .error e => (ctx1, .error e)
    | .ok result =>
      let audit := pyGetD result "audit" .null
      let critical :=
        truthy audit
          && (match audit with
              | .obj fs => truthy (pyGetD fs "has_critical_vulnerabilities" (.bool false))
              | _ => false)
      if critical then
        (dictInsert ctx1 "security_audit_feedback" (pyGetD result "audit_xml" (.str "")),
         .ok true)
      else (ctx1, .ok true)

/-- Dispatch to the phase function matching the current state (lines 264-301);
states outside the `if/elif` chain execute nothing. -/
def dispatch_phase (cfg : OrchConfig) (s : OrchestrationState) (n : Nat)
    (ctx : List (String × JValue)) :
    List (String × JValue) × Except String Bool :=
  match s with
  | .PLANNING => execute_planning_phase cfg.planner n ctx
  | .CODING => execute_coding_phase cfg.coder ctx
  | .REVIEWING => execute_review_phase cfg ctx
  | .AUDITING => execute_audit_phase cfg ctx
  | .TESTING => execute_testing_phase cfg.tester ctx
  | .REFLECTING => execute_reflection_phase cfg.reflector n ctx
  | _ => (ctx, .ok false)

/-- The state transition taken after a phase completes without raising
(lines 265-301); the Bool is the `break` taken on a passed test. -/
def next_state (cfg : OrchConfig) (s : OrchestrationState) (passed : Bool) :
    OrchestrationState × Bool :=
  match s with
  | .PLANNING => (.CODING, false)
  | .CODING =>
    if cfg.enable_code_review then (.REVIEWING, false)
    else if cfg.enable_security_audit then (.AUDITING, false)
    else (.TESTING, false)
  | .REVIEWING =>
    if cfg.enable_security_audit then (.AUDITING, false) else (.TESTING, false)
  | .AUDITING => (.TESTING, false)
  | .TESTING => if passed then (.SUCCESS, true) else (.REFLECTING, false)
  | .REFLECTING => (.CODING, false)
  | s => (s, false)

/-- One pass of the `while` body of `run` (lines 217-335): increment the
counter, set `context['iteration']`, manage hygiene, check the circuit
breaker (PAUSED and break when it trips), record the iteration, dispatch the
phase; a raising phase is caught and the loop continues with the state
unchanged. The Bool is true when the body executed `break`. -/
def loop_body (cfg : OrchConfig) (st : OrchSt) : OrchSt × Bool :=
  let n := st.current_iteration + 1
  let ctx0 := dictInsert st.context "iteration" (.num n)
  let ctx1 := manage_context_hygiene cfg.thresholds ctx0
  let stop := st.circuit_breaker.should_stop n
  if stop.1 then
    ({ st with
        state := .PAUSED,
        current_iteration := n,
        context := ctx1,
        circuit_breaker := stop.2 }, true)
  else
    let trace2 := st.trace ++ [(n, st.state)]
    let d := dispatch_phase cfg st.state n ctx1
    match d.2 with
    | .error _ =>
      ({ st with
          current_iteration := n,
          context := d.1,
          circuit_breaker := stop.2,
          trace := trace2 }, false)
    | .ok passed =>
      let ns := next_state cfg st.state passed
      ({ st with
          state := ns.1,
          current_iteration := n,
          context := d.1,
          circuit_breaker := stop.2,
          trace := trace2 }, ns.2)

/-- The `while self.current_iteration < self.max_iterations` loop of `run`
(line 217), fuel-driven: each pass increments the counter by one, so
`max_iterations` units of fuel always reach the loop exit. -/
def run_loop (cfg : OrchConfig) : Nat → OrchSt → OrchSt
  | 0, st => st
  | fuel + 1, st =>
    if st.current_iteration < cfg.max_iterations then
      let step := loop_body cfg st
      if step.2 then step.1 else run_loop cfg fuel step.1
    else st

/-- The context built in `Orchestrator.__init__` (lines 111-123). -/
def initial_context (task_id task_description goal problem_type language : String) :
    List (String × JValue) :=
  [ ("task_id", .str task_id),
    ("task_description", .str task_description),
    ("goal", .str goal),
    ("problem_type", .str problem_type),
    ("language", .str language),
    ("plan", .null),
    ("code_files", .obj []),
    ("test_results", .obj []),
    ("previous_errors", .str ""),
    ("workspace", .null),
    ("current_agent", .str "") ]

/-- The orchestrator state when `run` enters its loop: state PLANNING
(line 214), counter 0, fresh context, configured breaker, no records. -/
def initial_state (cfg : OrchConfig)
    (task_id task_description goal problem_type language : String) : OrchSt :=
  ⟨.PLANNING, 0,
    initial_context task_id task_description goal problem_type language,
    cfg.circuit_breaker, []⟩

/-- The orchestrator state after the loop of `run` finishes. -/
def run_final_state (cfg : OrchConfig)
    (task_id task_description goal problem_type language : String) : OrchSt :=
  run_loop cfg cfg.max_iterations
    (initial_state cfg task_id task_description goal problem_type language)

/-- `Orchestrator._finalize` (lines 598-671): the result dictionary returned
to the caller of `run` for each terminal situation. -/
def _finalize (cfg : OrchConfig) (st : OrchSt) : List (String × JValue) :=
  if st.state = OrchestrationState.SUCCESS then
    [ ("success", .bool true),
      ("iterations", .num st.current_iteration),
      ("code_files", pyGetD st.context "code_files" (.obj [])),
      ("workspace", pyGetD st.context "workspace" .null) ]
  else if st.state = OrchestrationState.PAUSED then
    [ ("success", .bool false),
      ("status", .str "paused"),
      ("iterations", .num st.current_iteration),
      ("message", .str "Task paused by circuit breaker") ]
  else
    [ ("success", .bool false),
      ("status", .str "failed"),
      ("iterations", .num st.current_iteration),
      ("message", .str ("Maximum iterations (" ++ toString cfg.max_iterations
        ++ ") reached")) ]

/-- `Orchestrator.run` (lines 205-338): loop, then finalize. A total Lean
function: the loop and finalization never raise (task-level failures are
reported through the result dictionary). -/
def run (cfg : OrchConfig)
    (task_id task_description goal problem_type language : String) :
    List (String × JValue) :=
  _finalize cfg (run_final_state cfg task_id task_description goal problem_type language)

theorem should_stop_fst_false (cb : CircuitBreaker) (i : Nat)
    (h : i < cb.hard_stop) : (cb.should_stop i).1 = false := by
  rw [CircuitBreaker.should_stop, if_neg (by omega)]
  split <;> rfl

/-- C6: when the loop body reaches dispatch (the breaker did not trip) and
the dispatched phase raises, the exception is caught: the loop body reports
no break (the loop proceeds to the next iteration), the iteration counter
advances, the phase record is still written, and the orchestration state is
exactly what it was before the failed phase. -/
theorem loop_body_phase_exception_resilience (cfg : OrchConfig) (st : OrchSt)
    (e : String)
    (hstop : (st.circuit_breaker.should_stop (st.current_iteration + 1)).1 = false)
    (herr : (dispatch_phase cfg st.state (st.current_iteration + 1)
        (manage_context_hygiene cfg.thresholds
          (dictInsert st.context "iteration" (.num (st.current_iteration + 1))))).2
      = .error e) :
    loop_body cfg st
      = ({ st with
            current_iteration := st.current_iteration + 1,
            context := (dispatch_phase cfg st.state (st.current_iteration + 1)
              (manage_context_hygiene cfg.thresholds
                (dictInsert st.context "iteration"
                  (.num (st.current_iteration + 1))))).1,
            circuit_breaker := (st.circuit_breaker.should_stop
              (st.current_iteration + 1)).2,
            trace := st.trace ++ [(st.current_iteration + 1, st.state)] }, false)
      ∧ (loop_body cfg st).1.state = st.state := by
  have hmain : loop_body cfg st
      = ({ st with
            current_iteration := st.current_iteration + 1,
            context := (dispatch_phase cfg st.state (st.current_iteration + 1)
              (manage_context_hygiene cfg.thresholds
                (dictInsert st.context "iteration"
                  (.num (st.current_iteration + 1))))).1,
            circuit_breaker := (st.circuit_breaker.should_stop
              (st.current_iteration + 1)).2,
            trace := st.trace ++ [(st.current_iteration + 1, st.state)] }, false) := by
    rw [loop_body]
    simp only [hstop, Bool.false_eq_true, if_false, ite_false]
    rw [herr]
  exact ⟨hmain, by rw [hmain]⟩

/-- A generic successful loop pass: the breaker is below its hard stop and
the dispatched phase completes with `passed`; the body advances the counter,
records the phase, installs the phase's context, and moves to the successor
state (breaking exactly when a test pass moves to SUCCESS). -/
theorem loop_body_ok_step (cfg : OrchConfig) (st : OrchSt) (passed : Bool)
    (hstop : st.current_iteration + 1 < st.circuit_breaker.hard_stop)
    (hdisp : (dispatch_phase cfg st.state (st.current_iteration + 1)
        (manage_context_hygiene cfg.thresholds
          (dictInsert st.context "iteration" (.num (st.current_iteration + 1))))).2
      = .ok passed) :
    loop_body cfg st
      = ({ st with
            state := (next_state cfg st.state passed).1,
            current_iteration := st.current_iteration + 1,
            context := (dispatch_phase cfg st.state (st.current_iteration + 1)
              (manage_context_hygiene cfg.thresholds
                (dictInsert st.context "iteration"
                  (.num (st.current_iteration + 1))))).1,
            circuit_breaker := (st.circuit_breaker.should_stop
              (st.current_iteration + 1)).2,
            trace := st.trace ++ [(st.current_iteration + 1, st.state)] },
         (next_state cfg st.state passed).2) := by
  rw [loop_body]
  simp only [should_stop_fst_false st.circuit_breaker (st.current_iteration + 1) hstop,
    Bool.false_eq_true, if_false, ite_false]
  rw [hdisp]

/-- An agent that always raises. -/
def failing_agent : AgentFn := fun _ => .error "APIError"

/-- A planner that always returns a plan. -/
def ok_planner : AgentFn := fun _ => .ok [("plan", .str "p")]

/-- A coder that always returns one code file. -/
def ok_coder : AgentFn :=
  fun _ => .ok [("code_files", .obj [("main.py", .str "print(1)")])]

/-- A tester that always reports a pass. -/
def pass_tester : AgentFn := fun _ => .ok [("passed", .bool true)]

/-- A reflector that always succeeds. -/
def ok_reflector : AgentFn := fun _ => .ok [("root_cause", .str "e")]

/-- A configuration whose tester passes on the first run (defaults
otherwise: 15 iterations, breaker 12/15, review and audit disabled). -/
def passing_cfg : OrchConfig :=
  { planner := ok_planner, coder := ok_coder, tester := pass_tester,
    reflector := ok_reflector, code_reviewer := fun _ => .ok [],
    security_auditor := fun _ => .ok [] }

/-- The same configuration with a planner that always raises. -/
def failing_planner_cfg : OrchConfig :=
  { passing_cfg with planner := failing_agent }

/-- The orchestrator state entering the loop for the C6 scenario. -/
def stC6 : OrchSt := initial_state failing_planner_cfg "t1" "d" "g" "general" "python"

/-- Witness for C6: with a raising planner, the first loop pass keeps the
state at PLANNING and does not break the loop. -/
theorem loop_body_phase_exception_resilience_witness :
    (loop_body failing_planner_cfg stC6).1.state = stC6.state
    ∧ (loop_body failing_planner_cfg stC6).2 = false :=
  ⟨(loop_body_phase_exception_resilience failing_planner_cfg stC6 "APIError"
      rfl rfl).2,
   congrArg Prod.snd
     (loop_body_phase_exception_resilience failing_planner_cfg stC6 "APIError"
       rfl rfl).1⟩

/-- C7 counterexample: a run that ends in SUCCESS returns a result with the
success flag but with no `status` key at all (the SUCCESS branch of
`_finalize`, lines 633-638, omits it). -/
theorem run_success_result_missing_status :
    lookup (run passing_cfg "t1" "d" "g" "general" "python") "status" = none
    ∧ lookup (run passing_cfg "t1" "d" "g" "general" "python") "success"
        = some (.bool true) := by
  exact ⟨rfl, rfl⟩

/-- C7 (amended): `run` is a total function whose result always carries the
success flag and the iteration count; a failure result (PAUSED or
max-iterations FAILED) additionally carries a status string and a
human-readable message, and a success result carries the output artifacts
(code files and workspace) — but no status string. -/
theorem run_result_shape (cfg : OrchConfig) (a b c d e : String) :
    (lookup (run cfg a b c d e) "success").isSome
    ∧ (lookup (run cfg a b c d e) "iterations").isSome
    ∧ (lookup (run cfg a b c d e) "success" = some (.bool false) →
        (lookup (run cfg a b c d e) "status").isSome
        ∧ (lookup (run cfg a b c d e) "message").isSome)
    ∧ (lookup (run cfg a b c d e) "success" = some (.bool true) →
        (lookup (run cfg a b c d e) "code_files").isSome
        ∧ (lookup (run cfg a b c d e) "workspace").isSome
        ∧ lookup (run cfg a b c d e) "status" = none) := by
  rw [run]
  by_cases h1 : (run_final_state cfg a b c d e).state = OrchestrationState.SUCCESS
  · rw [_finalize, if_pos h1]
    refine ⟨rfl, rfl, ?_, ?_⟩
    · intro h
      simp [lookup] at h
    · intro _
      exact ⟨rfl, rfl, rfl⟩
  · rw [_finalize, if_neg h1]
    by_cases h2 : (run_final_state cfg a b c d e).state = OrchestrationState.PAUSED
    · rw [if_pos h2]
      refine ⟨rfl, rfl, fun _ => ⟨rfl, rfl⟩, ?_⟩
      intro h
      simp [lookup] at h
    · rw [if_neg h2]
      refine ⟨rfl, rfl, fun _ => ⟨rfl, rfl⟩, ?_⟩
      intro h
      simp [lookup] at h

/-- Witness for C7 at the always-passing configuration: the success result
has the flag, the count and the artifacts. -/
theorem run_result_shape_witness :
    (lookup (run passing_cfg "t1" "d" "g" "general" "python") "success").isSome
    ∧ (lookup (run passing_cfg "t1" "d" "g" "general" "python") "iterations").isSome
    ∧ (lookup (run passing_cfg "t1" "d" "g" "general" "python") "code_files").isSome
    ∧ (lookup (run passing_cfg "t1" "d" "g" "general" "python") "workspace").isSome :=
  ⟨(run_result_shape passing_cfg "t1" "d" "g" "general" "python").1,
   (run_result_shape passing_cfg "t1" "d" "g" "general" "python").2.1,
   ((run_result_shape passing_cfg "t1" "d" "g" "general" "python").2.2.2 rfl).1,
   ((run_result_shape passing_cfg "t1" "d" "g" "general" "python").2.2.2 rfl).2.1⟩

theorem should_stop_snd_hard_stop (cb : CircuitBreaker) (i : Nat) :
    ((cb.should_stop i).2).hard_stop = cb.hard_stop := by
  rw [CircuitBreaker.should_stop]
  split
  · rfl
  · split <;> rfl

theorem run_loop_step (cfg : OrchConfig) (fuel : Nat) (st st2 : OrchSt) (broke : Bool)
    (hcond : st.current_iteration < cfg.max_iterations)
    (hbody : loop_body cfg st = (st2, broke)) :
    run_loop cfg (fuel + 1) st = if broke then st2 else run_loop cfg fuel st2 := by
  rw [run_loop, if_pos hcond]
  simp only [hbody]

/-- A PLANNING pass with a well-behaved planner moves to CODING without
breaking. -/
theorem step_planning (cfg : OrchConfig) (it : Nat) (ctx : List (String × JValue))
    (cb : CircuitBreaker) (tr : List (Nat × OrchestrationState))
    (hstop : it + 1 < cb.hard_stop)
    (hplan : ∀ c, ∃ r, cfg.planner c = .ok r ∧ (lookup r "plan").isSome) :
    ∃ ctx2, loop_body cfg ⟨.PLANNING, it, ctx, cb, tr⟩
      = (⟨.CODING, it + 1, ctx2, (cb.should_stop (it + 1)).2,
          tr ++ [(it + 1, .PLANNING)]⟩, false) := by
  have hdisp : (dispatch_phase cfg (OrchestrationState.PLANNING) (it + 1)
      (manage_context_hygiene cfg.thresholds
        (dictInsert ctx "iteration" (.num (it + 1))))).2 = .ok true := by
    show (execute_planning_phase cfg.planner (it + 1)
      (manage_context_hygiene cfg.thresholds
        (dictInsert ctx "iteration" (.num (it + 1))))).2 = .ok true
    obtain ⟨r, hr, hpl⟩ := hplan
      (dictInsert (manage_context_hygiene cfg.thresholds
        (dictInsert ctx "iteration" (.num (it + 1)))) "iteration" (.num (it + 1)))
    obtain ⟨pl, hpl2⟩ := Option.isSome_iff_exists.mp hpl
    simp only [execute_planning_phase, hr, hpl2]
  exact ⟨_, loop_body_ok_step cfg ⟨.PLANNING, it, ctx, cb, tr⟩ true hstop hdisp⟩

/-- A CODING pass with a well-behaved coder (review and audit disabled)
moves to TESTING without breaking. -/
theorem step_coding (cfg : OrchConfig) (it : Nat) (ctx : List (String × JValue))
    (cb : CircuitBreaker) (tr : List (Nat × OrchestrationState))
    (hrev : cfg.enable_code_review = false)
    (haud : cfg.enable_security_audit = false)
    (hstop : it + 1 < cb.hard_stop)
    (hcode : ∀ c, ∃ r fs, cfg.coder c = .ok r
      ∧ lookup r "code_files" = some (.obj fs)) :
    ∃ ctx2, loop_body cfg ⟨.CODING, it, ctx, cb, tr⟩
      = (⟨.TESTING, it + 1, ctx2, (cb.should_stop (it + 1)).2,
          tr ++ [(it + 1, .CODING)]⟩, false) := by
  have hdisp : (dispatch_phase cfg (OrchestrationState.CODING) (it + 1)
      (manage_context_hygiene cfg.thresholds
        (dictInsert ctx "iteration" (.num (it + 1))))).2 = .ok true := by
    show (execute_coding_phase cfg.coder
      (manage_context_hygiene cfg.thresholds
        (dictInsert ctx "iteration" (.num (it + 1))))).2 = .ok true
    obtain ⟨r, fs, hr, hcf⟩ := hcode
      (manage_context_hygiene cfg.thresholds
        (dictInsert ctx "iteration" (.num (it + 1))))
    simp only [execute_coding_phase, hr, hcf]
  have hns : next_state cfg OrchestrationState.CODING true = (.TESTING, false) := by
    rw [next_state]
    simp only [hrev, haud, Bool.false_eq_true, if_false, ite_false]
  have heq := loop_body_ok_step cfg ⟨.CODING, it, ctx, cb, tr⟩ true hstop hdisp
  rw [hns] at heq
  exact ⟨_, heq⟩

/-- A TESTING pass whose tester reports a pass moves to SUCCESS and breaks
the loop. -/
theorem step_testing_pass (cfg : OrchConfig) (it : Nat) (ctx : List (String × JValue))
    (cb : CircuitBreaker) (tr : List (Nat × OrchestrationState))
    (hstop : it + 1 < cb.hard_stop)
    (htest : ∀ c, ∃ r, cfg.tester c = .ok r
      ∧ truthy (pyGetD r "passed" (.bool false)) = true) :
    ∃ ctx2, loop_body cfg ⟨.TESTING, it, ctx, cb, tr⟩
      = (⟨.SUCCESS, it + 1, ctx2, (cb.should_stop (it + 1)).2,
          tr ++ [(it + 1, .TESTING)]⟩, true) := by
  have hdisp : (dispatch_phase cfg (OrchestrationState.TESTING) (it + 1)
      (manage_context_hygiene cfg.thresholds
        (dictInsert ctx "iteration" (.num (it + 1))))).2 = .ok true := by
    show (execute_testing_phase cfg.tester
      (manage_context_hygiene cfg.thresholds
        (dictInsert ctx "iteration" (.num (it + 1))))).2 = .ok true
    obtain ⟨r, hr, hpass⟩ := htest
      (manage_context_hygiene cfg.thresholds
        (dictInsert ctx "iteration" (.num (it + 1))))
    simp only [execute_testing_phase, hr, hpass]
  exact ⟨_, loop_body_ok_step cfg ⟨.TESTING, it, ctx, cb, tr⟩ true hstop hdisp⟩

/-- C1 (amended): with review and audit disabled, a planner and coder that
behave, and a tester that reports `passed=True` the first time TESTING runs,
`run` ends in SUCCESS with the iteration counter equal to 3 — the loop
executes one phase per iteration, so PLANNING, CODING and TESTING each run
exactly once (iterations 1, 2 and 3) and REFLECTING is never entered —
provided the bounds allow three iterations (`max_iterations >= 3`,
`hard_stop > 3`). -/
theorem run_first_pass_success_spec (cfg : OrchConfig) (a b c d e : String)
    (hrev : cfg.enable_code_review = false)
    (haud : cfg.enable_security_audit = false)
    (hmax : 3 ≤ cfg.max_iterations)
    (hhard : 3 < cfg.circuit_breaker.hard_stop)
    (hplan : ∀ c, ∃ r, cfg.planner c = .ok r ∧ (lookup r "plan").isSome)
    (hcode : ∀ c, ∃ r fs, cfg.coder c = .ok r
      ∧ lookup r "code_files" = some (.obj fs))
    (htest : ∀ c, ∃ r, cfg.tester c = .ok r
      ∧ truthy (pyGetD r "passed" (.bool false)) = true) :
    (run_final_state cfg a b c d e).state = OrchestrationState.SUCCESS
    ∧ (run_final_state cfg a b c d e).current_iteration = 3
    ∧ (run_final_state cfg a b c d e).trace
        = [(1, .PLANNING), (2, .CODING), (3, .TESTING)] := by
  obtain ⟨f, hf⟩ : ∃ f, cfg.max_iterations = f + 1 + 1 + 1 :=
    ⟨cfg.max_iterations - 3, by omega⟩
  obtain ⟨ctx1, h1⟩ := step_planning cfg 0 (initial_context a b c d e)
    cfg.circuit_breaker [] (by omega) hplan
  obtain ⟨ctx2, h2⟩ := step_coding cfg (0 + 1) ctx1
    ((cfg.circuit_breaker.should_stop (0 + 1)).2) ([] ++ [(0 + 1, .PLANNING)])
    hrev haud (by rw [should_stop_snd_hard_stop]; omega) hcode
  obtain ⟨ctx3, h3⟩ := step_testing_pass cfg (0 + 1 + 1) ctx2
    (((cfg.circuit_breaker.should_stop (0 + 1)).2).should_stop (0 + 1 + 1)).2
    (([] ++ [(0 + 1, .PLANNING)]) ++ [(0 + 1 + 1, .CODING)])
    (by rw [should_stop_snd_hard_stop, should_stop_snd_hard_stop]; omega) htest
  have hrun : run_final_state cfg a b c d e
      = ⟨.SUCCESS, 0 + 1 + 1 + 1, ctx3,
          ((((cfg.circuit_breaker.should_stop (0 + 1)).2).should_stop
            (0 + 1 + 1)).2.should_stop (0 + 1 + 1 + 1)).2,
          ((([] ++ [(0 + 1, .PLANNING)]) ++ [(0 + 1 + 1, .CODING)])
            ++ [(0 + 1 + 1 + 1, .TESTING)])⟩ := by
    rw [run_final_state, hf]
    have hinit : initial_state cfg a b c d e
        = ⟨.PLANNING, 0, initial_context a b c d e, cfg.circuit_breaker, []⟩ := rfl
    rw [hinit]
    rw [run_loop_step cfg (f + 1 + 1) _ _ false
      (show (0 : Nat) < cfg.max_iterations by omega) h1]
    rw [if_neg (by simp)]
    rw [run_loop_step cfg (f + 1) _ _ false
      (show 0 + 1 < cfg.max_iterations by omega) h2]
    rw [if_neg (by simp)]
    rw [run_loop_step cfg f _ _ true
      (show 0 + 1 + 1 < cfg.max_iterations by omega) h3]
    rw [if_pos rfl]
  rw [hrun]
  exact ⟨rfl, rfl, rfl⟩

/-- C1 counterexample: for the concrete always-passing configuration the run
ends in SUCCESS with the iteration counter equal to 3, not 1 (the loop
executes one phase per iteration), with exactly the records
PLANNING, CODING, TESTING. -/
theorem run_first_pass_ends_at_iteration_three :
    (run_final_state passing_cfg "t1" "d" "g" "general" "python").state
      = OrchestrationState.SUCCESS
    ∧ (run_final_state passing_cfg "t1" "d" "g" "general" "python").current_iteration
      = 3
    ∧ ¬ ((run_final_state passing_cfg "t1" "d" "g" "general" "python").current_iteration
      = 1)
    ∧ (run_final_state passing_cfg "t1" "d" "g" "general" "python").trace
      = [(1, .PLANNING), (2, .CODING), (3, .TESTING)] := by
  refine ⟨rfl, rfl, ?_, rfl⟩
  intro h
  have h3 : (run_final_state passing_cfg "t1" "d" "g" "general" "python").current_iteration
      = 3 := rfl
  rw [h] at h3
  exact absurd h3 (by decide)

/-- Witness for C1 (amended) at the always-passing configuration. -/
theorem run_first_pass_success_spec_witness :
    (run_final_state passing_cfg "t2" "d" "g" "general" "python").state
      = OrchestrationState.SUCCESS
    ∧ (run_final_state passing_cfg "t2" "d" "g" "general" "python").current_iteration
      = 3
    ∧ (run_final_state passing_cfg "t2" "d" "g" "general" "python").trace
      = [(1, .PLANNING), (2, .CODING), (3, .TESTING)] :=
  run_first_pass_success_spec passing_cfg "t2" "d" "g" "general" "python"
    rfl rfl (by decide) (by decide)
    (fun _ => ⟨[("plan", .str "p")], rfl, rfl⟩)
    (fun _ => ⟨[("code_files", .obj [("main.py", .str "print(1)")])],
      [("main.py", .str "print(1)")], rfl, rfl⟩)
    (fun _ => ⟨[("passed", .bool true)], rfl, rfl⟩)

/-! ## C3: how much `compact` can change the serialized size

`compact` is not size-decreasing: it always attaches a compaction-metadata
entry and its truncations insert marker strings. The lemmas below bound the
possible growth by an explicit bookkeeping overhead. -/

theorem vlenFields_nil : vlenFields [] = 0 := rfl

theorem vlenFields_formula (l : List (String × JValue)) (h : l ≠ []) :
    vlenFields l = sumEntry l + 2 * (l.length - 1) := by
  induction l with
  | nil => exact absurd rfl h
  | cons e tl ih =>
    obtain ⟨k, v⟩ := e
    cases tl with
    | nil => simp [vlenFields, sumEntry, entryLen]
    | cons f tl2 =>
      rw [show vlenFields ((k, v) :: f :: tl2)
          = k.length + 4 + vlen v + 2 + vlenFields (f :: tl2) from by
            obtain ⟨fk, fv⟩ := f
            rfl]
      rw [ih (by simp)]
      simp [sumEntry, entryLen]
      omega

theorem sumEntry_le_vlenFields (l : List (String × JValue)) :
    sumEntry l ≤ vlenFields l := by
  cases hl : l with
  | nil => simp [sumEntry, vlenFields_nil]
  | cons e tl =>
    rw [vlenFields_formula (e :: tl) (by simp)]
    omega

theorem vlenFields_le_sumEntry_add (l : List (String × JValue)) :
    vlenFields l ≤ sumEntry l + 2 * l.length := by
  cases hl : l with
  | nil => simp [sumEntry, vlenFields_nil]
  | cons e tl =>
    rw [vlenFields_formula (e :: tl) (by simp)]
    omega

theorem sumEntry_cons (e : String × JValue) (l : List (String × JValue)) :
    sumEntry (e :: l) = entryLen e + sumEntry l := by
  simp [sumEntry]

theorem length_dictInsert_le (m : List (String × JValue)) (k : String) (v : JValue) :
    (dictInsert m k v).length ≤ m.length + 1 := by
  induction m with
  | nil => simp [dictInsert]
  | cons hd tl ih =>
    obtain ⟨k0, v0⟩ := hd
    by_cases h : k0 = k
    · simp [dictInsert, h]
    · simp only [dictInsert, if_neg h, List.length_cons]
      omega

theorem sumEntry_dictInsert_le (m : List (String × JValue)) (k : String) (v : JValue) :
    sumEntry (dictInsert m k v) ≤ sumEntry m + entryLen (k, v) := by
  induction m with
  | nil => simp [dictInsert, sumEntry]
  | cons hd tl ih =>
    obtain ⟨k0, v0⟩ := hd
    by_cases h : k0 = k
    · subst h
      rw [show dictInsert ((k0, v0) :: tl) k0 v = (k0, v) :: tl from by
        simp [dictInsert]]
      rw [sumEntry_cons, sumEntry_cons]
      have : entryLen (k0, v) = entryLen (k0, v) := rfl
      simp [entryLen]
      omega
    · rw [show dictInsert ((k0, v0) :: tl) k v = (k0, v0) :: dictInsert tl k v from by
        simp [dictInsert, h]]
      rw [sumEntry_cons, sumEntry_cons]
      omega

/-- Replacement form: when the key is present with a value within `c` of the
new one, `dictInsert` changes the entry sum by at most `c` and keeps the
length. -/
theorem sumEntry_dictInsert_replace (m : List (String × JValue)) (k : String)
    (v0 v : JValue) (c : Nat) (hl : lookup m k = some v0) (hv : vlen v ≤ vlen v0 + c) :
    sumEntry (dictInsert m k v) ≤ sumEntry m + c
    ∧ (dictInsert m k v).length = m.length := by
  induction m with
  | nil => simp [lookup] at hl
  | cons hd tl ih =>
    obtain ⟨k0, v0x⟩ := hd
    by_cases h : k0 = k
    · subst h
      rw [lookup, if_pos rfl] at hl
      have hvv := Option.some.inj hl
      rw [show dictInsert ((k0, v0x) :: tl) k0 v = (k0, v) :: tl from by
        simp [dictInsert]]
      constructor
      · rw [sumEntry_cons, sumEntry_cons]
        have hv2 : vlen v ≤ vlen v0x + c := by rw [hvv]; exact hv
        simp only [entryLen]
        omega
      · simp
    · rw [lookup, if_neg h] at hl
      obtain ⟨hsum, hlen⟩ := ih hl
      rw [show dictInsert ((k0, v0x) :: tl) k v = (k0, v0x) :: dictInsert tl k v from by
        simp [dictInsert, h]]
      constructor
      · rw [sumEntry_cons, sumEntry_cons]
        omega
      · simp [hlen]

theorem mem_dictInsert (m : List (String × JValue)) (k : String) (v : JValue)
    (kv : String × JValue) (h : kv ∈ dictInsert m k v) : kv = (k, v) ∨ kv ∈ m := by
  induction m with
  | nil => simp [dictInsert] at h; exact Or.inl h
  | cons hd tl ih =>
    obtain ⟨k0, v0⟩ := hd
    by_cases h0 : k0 = k
    · subst h0
      rw [show dictInsert ((k0, v0) :: tl) k0 v = (k0, v) :: tl from by
        simp [dictInsert]] at h
      rcases List.mem_cons.mp h with h1 | h1
      · exact Or.inl h1
      · exact Or.inr (List.mem_cons_of_mem _ h1)
    · rw [show dictInsert ((k0, v0) :: tl) k v = (k0, v0) :: dictInsert tl k v from by
        simp [dictInsert, h0]] at h
      rcases List.mem_cons.mp h with h1 | h1
      · exact Or.inr (by rw [h1]; exact List.mem_cons_self _ _)
      · rcases ih h1 with h2 | h2
        · exact Or.inl h2
        · exact Or.inr (List.mem_cons_of_mem _ h2)

theorem keys_dictInsert (m : List (String × JValue)) (k : String) (v : JValue) :
    keys (dictInsert m k v) = if k ∈ keys m then keys m else keys m ++ [k] := by
  induction m with
  | nil => simp [dictInsert, keys]
  | cons hd tl ih =>
    obtain ⟨k0, v0⟩ := hd
    by_cases h : k0 = k
    · subst h
      rw [show dictInsert ((k0, v0) :: tl) k0 v = (k0, v) :: tl from by
        simp [dictInsert]]
      simp [keys]
    · rw [show dictInsert ((k0, v0) :: tl) k v = (k0, v0) :: dictInsert tl k v from by
        simp [dictInsert, h]]
      by_cases hm : k ∈ keys tl
      · rw [show keys ((k0, v0) :: dictInsert tl k v)
            = k0 :: keys (dictInsert tl k v) from rfl, ih, if_pos hm]
        rw [if_pos (by simp [keys]; right; simpa [keys] using hm)]
        rfl
      · rw [show keys ((k0, v0) :: dictInsert tl k v)
            = k0 :: keys (dictInsert tl k v) from rfl, ih, if_neg hm]
        rw [if_neg (by
          simp only [keys, List.map_cons, List.mem_cons]
          push_neg
          exact ⟨fun hh => h hh.symm, by simpa [keys] using hm⟩)]
        rfl

theorem keys_dictInsert_nodup (m : List (String × JValue)) (k : String) (v : JValue)
    (h : (keys m).Nodup) : (keys (dictInsert m k v)).Nodup := by
  rw [keys_dictInsert]
  by_cases hm : k ∈ keys m
  · rw [if_pos hm]; exact h
  · rw [if_neg hm]
    simp [List.nodup_append, h, hm]

/-- Truncating a rule-preserved value adds at most the 18-character marker
(bounded by 28). -/
theorem truncateValue_vlen_le (m : Nat) (v : JValue) :
    vlen (truncateValue m v) ≤ vlen v + 28 := by
  cases v with
  | str s =>
    rw [truncateValue]
    by_cases h : m < count_tokens s
    · rw [if_pos h]
      have hlen : (String.mk (s.data.take (s.length * m / count_tokens s))
          ++ "\n[...truncated...]").length
          = min (s.length * m / count_tokens s) s.length + 18 := by
        rw [String.length_append]
        have h1 : (String.mk (s.data.take (s.length * m / count_tokens s))).length
            = (s.data.take (s.length * m / count_tokens s)).length := rfl
        rw [h1, List.length_take]
        rfl
      show (String.mk (s.data.take (s.length * m / count_tokens s))
          ++ "\n[...truncated...]").length + 2 ≤ s.length + 2 + 28
      rw [hlen]
      have := min_le_right (s.length * m / count_tokens s) s.length
      omega
    · rw [if_neg h]
      omega
  | null => simp [truncateValue]
  | bool b => simp [truncateValue]
  | num n => simp [truncateValue]
  | arr es => simp [truncateValue]
  | obj fs => simp [truncateValue]

theorem splitOnNl_ne_nil (cs : List Char) : splitOnNl cs ≠ [] := by
  induction cs with
  | nil => simp [splitOnNl]
  | cons c rest ih =>
    rw [splitOnNl]
    by_cases h : c = '\n'
    · simp [h]
    · rw [if_neg h]
      cases hs : splitOnNl rest with
      | nil => simp
      | cons l ls => simp

theorem splitOnNl_sum (cs : List Char) :
    ((splitOnNl cs).map List.length).sum + ((splitOnNl cs).length - 1) = cs.length := by
  induction cs with
  | nil => simp [splitOnNl]
  | cons c rest ih =>
    rw [splitOnNl]
    by_cases h : c = '\n'
    · rw [if_pos h]
      have hne := splitOnNl_ne_nil rest
      have hlen : 1 ≤ (splitOnNl rest).length := by
        cases hs : splitOnNl rest with
        | nil => exact absurd hs hne
        | cons l ls => simp
      simp only [List.map_cons, List.length_cons, List.sum_cons, List.length_nil]
      omega
    · rw [if_neg h]
      cases hs : splitOnNl rest with
      | nil => exact absurd hs (splitOnNl_ne_nil rest)
      | cons l ls =>
        rw [hs] at ih
        simp only [List.map_cons, List.sum_cons, List.length_cons] at ih ⊢
        omega

theorem pySplitLines_map_length (s : String) :
    (pySplitLines s).map String.length = (splitOnNl s.data).map List.length := by
  rw [pySplitLines, List.map_map]
  exact List.map_congr_left (fun a _ => rfl)

theorem pySplitLines_length (s : String) :
    (pySplitLines s).length = (splitOnNl s.data).length := by
  rw [pySplitLines, List.length_map]

theorem joinNl_length (ls : List String) (h : ls ≠ []) :
    (joinNl ls).length = (ls.map String.length).sum + (ls.length - 1) := by
  induction ls with
  | nil => exact absurd rfl h
  | cons l tl ih =>
    cases tl with
    | nil => simp [joinNl]
    | cons m t2 =>
      rw [show joinNl (l :: m :: t2) = l ++ "\n" ++ joinNl (m :: t2) from rfl]
      rw [String.length_append, String.length_append, ih (by simp)]
      simp only [List.map_cons, List.sum_cons, List.length_cons]
      have hl : ("\n" : String).length = 1 := rfl
      omega

theorem sum_map_take_le_take (f : String → Nat) (l : List String) (k j : Nat)
    (h : k ≤ j) : ((l.take k).map f).sum ≤ ((l.take j).map f).sum := by
  have h1 : l.take k = (l.take j).take k := by
    rw [List.take_take, min_eq_left h]
  rw [h1]
  exact List.Sublist.sum_le_sum
    (List.Sublist.map f (List.take_sublist k (l.take j))) (by intro x hx; omega)

theorem sum_take_add_drop_le (f : String → Nat) (l : List String) (k j : Nat)
    (h : k ≤ j) :
    ((l.take k).map f).sum + ((l.drop j).map f).sum ≤ (l.map f).sum := by
  have hsplit : ((l.map f).take j).sum + ((l.map f).drop j).sum = (l.map f).sum :=
    List.sum_take_add_sum_drop _ j
  have h1 : (l.take j).map f = (l.map f).take j := by simp [List.map_take]
  have h2 : (l.drop j).map f = (l.map f).drop j := by simp [List.map_drop]
  have h3 := sum_map_take_le_take f l k j h
  rw [h1] at h3
  rw [h2]
  omega

theorem compactOneFile_fst (kv : String × JValue) :
    (compactOneFile kv).1 = kv.1 := by
  obtain ⟨k, v⟩ := kv
  cases v with
  | str content =>
    simp only [compactOneFile]
    split
    · split <;> rfl
    · rfl
  | null => rfl
  | bool b => rfl
  | num n => rfl
  | arr es => rfl
  | obj fs => rfl

theorem compactOneFile_entryLen_le (kv : String × JValue) :
    entryLen (compactOneFile kv) ≤ entryLen kv + 28 := by
  obtain ⟨k, v⟩ := kv
  cases v with
  | str content =>
    simp only [compactOneFile]
    by_cases h1 : 2000 < count_tokens content
    · rw [if_pos h1]
      by_cases h2 : 100 < (pySplitLines content).length
      · rw [if_pos h2]
        set lines := pySplitLines content with hlines
        have hn : 100 < lines.length := h2
        have hjoin : (joinNl (lines.take 50
            ++ ["\n# [...middle truncated...]\n"]
            ++ lines.drop (lines.length - 50))).length
            ≤ content.length + 28 := by
          have hne : lines.take 50 ++ ["\n# [...middle truncated...]\n"]
              ++ lines.drop (lines.length - 50) ≠ [] := by simp
          rw [joinNl_length _ hne]
          have hmark : ("\n# [...middle truncated...]\n" : String).length = 28 := rfl
          have hsum : ((lines.take 50 ++ ["\n# [...middle truncated...]\n"]
              ++ lines.drop (lines.length - 50)).map String.length).sum
              = ((lines.take 50).map String.length).sum + 28
                + ((lines.drop (lines.length - 50)).map String.length).sum := by
            simp [hmark]
            omega
          have hcnt : (lines.take 50 ++ ["\n# [...middle truncated...]\n"]
              ++ lines.drop (lines.length - 50)).length
              = 50 + 1 + (lines.length - (lines.length - 50)) := by
            simp [List.length_take, List.length_drop]
            omega
          have hparts := sum_take_add_drop_le String.length lines 50
            (lines.length - 50) (by omega)
          have hcontent : (lines.map String.length).sum + (lines.length - 1)
              = content.length := by
            rw [hlines, pySplitLines_map_length, pySplitLines_length]
            exact splitOnNl_sum content.data
          rw [hsum, hcnt]
          omega
        simp only [entryLen]
        show k.length + 4 + ((joinNl _).length + 2) ≤ k.length + 4 + (content.length + 2) + 28
        omega
      · rw [if_neg h2]
        omega
    · rw [if_neg h1]
      omega
  | null =>
    show entryLen (k, JValue.null) ≤ entryLen (k, JValue.null) + 28
    omega
  | bool b =>
    show entryLen (k, JValue.bool b) ≤ entryLen (k, JValue.bool b) + 28
    omega
  | num n =>
    show entryLen (k, JValue.num n) ≤ entryLen (k, JValue.num n) + 28
    omega
  | arr es =>
    show entryLen (k, JValue.arr es) ≤ entryLen (k, JValue.arr es) + 28
    omega
  | obj fs =>
    show entryLen (k, JValue.obj fs) ≤ entryLen (k, JValue.obj fs) + 28
    omega

/-- Number of code files of the `code_files` value. -/
def filesCountOf : JValue → Nat
  | .obj fs => fs.length
  | _ => 0

theorem sumEntry_map_le (g : String × JValue → String × JValue) (c : Nat)
    (hg : ∀ e, entryLen (g e) ≤ entryLen e + c) (fs : List (String × JValue)) :
    sumEntry (fs.map g) ≤ sumEntry fs + c * fs.length := by
  induction fs with
  | nil => simp [sumEntry]
  | cons e tl ih =>
    rw [List.map_cons, sumEntry_cons, sumEntry_cons]
    have := hg e
    simp only [List.length_cons]
    have hrec := ih
    have hmul : c * (tl.length + 1) = c * tl.length + c := by ring
    omega

theorem compact_code_files_vlen_le (v : JValue) :
    vlen (compact_code_files v) ≤ vlen v + 28 + 28 * filesCountOf v := by
  by_cases ht : truthy v = false
  · rw [compact_code_files.eq_def, if_pos ht]
    have h1 : vlen (JValue.obj []) = 2 := rfl
    omega
  · cases v with
    | obj fs =>
      rw [compact_code_files.eq_def, if_neg ht]
      show vlen (.obj (fs.map compactOneFile)) ≤ vlen (.obj fs) + 28 + 28 * filesCountOf (.obj fs)
      have hsum := sumEntry_map_le compactOneFile 28 compactOneFile_entryLen_le fs
      have hcnt : filesCountOf (JValue.obj fs) = fs.length := rfl
      cases hfs : fs with
      | nil =>
        show 2 + vlenFields (List.map compactOneFile [])
          ≤ 2 + vlenFields ([] : List (String × JValue)) + 28
            + 28 * filesCountOf (JValue.obj [])
        rw [List.map_nil, vlenFields_nil]
        omega
      | cons e tl =>
        have h1 : vlenFields ((e :: tl).map compactOneFile)
            = sumEntry ((e :: tl).map compactOneFile)
              + 2 * (((e :: tl).map compactOneFile).length - 1) :=
          vlenFields_formula _ (by simp)
        have h2 : vlenFields (e :: tl) = sumEntry (e :: tl) + 2 * ((e :: tl).length - 1) :=
          vlenFields_formula _ (by simp)
        show 2 + vlenFields ((e :: tl).map compactOneFile)
          ≤ 2 + vlenFields (e :: tl) + 28 + 28 * filesCountOf (JValue.obj (e :: tl))
        have hcnt2 : filesCountOf (JValue.obj (e :: tl)) = (e :: tl).length := rfl
        rw [h1, h2, List.length_map, hcnt2]
        rw [hfs] at hsum
        omega
    | null => exact absurd rfl ht
    | bool b =>
      rw [compact_code_files.eq_def, if_neg ht]
      show vlen (JValue.bool b) ≤ vlen (JValue.bool b) + 28 + 28 * filesCountOf (JValue.bool b)
      omega
    | num n =>
      rw [compact_code_files.eq_def, if_neg ht]
      show vlen (JValue.num n) ≤ vlen (JValue.num n) + 28 + 28 * filesCountOf (JValue.num n)
      omega
    | str st =>
      rw [compact_code_files.eq_def, if_neg ht]
      show vlen (JValue.str st) ≤ vlen (JValue.str st) + 28 + 28 * filesCountOf (JValue.str st)
      omega
    | arr es =>
      rw [compact_code_files.eq_def, if_neg ht]
      show vlen (JValue.arr es) ≤ vlen (JValue.arr es) + 28 + 28 * filesCountOf (JValue.arr es)
      omega

theorem sumEntry_filter_le (p : String × JValue → Bool) (fs : List (String × JValue)) :
    sumEntry (fs.filter p) ≤ sumEntry fs :=
  List.Sublist.sum_le_sum (List.Sublist.map entryLen (List.filter_sublist fs))
    (by intro x hx; omega)

theorem compact_test_results_obj_vlen_le (fs : List (String × JValue)) :
    vlen (compact_test_results_obj fs) ≤ vlen (JValue.obj fs) + 28 := by
  have hfilter : vlenFields (fs.filter (fun kv => essential_fields.contains kv.1))
      ≤ vlenFields fs + 2 := by
    cases hfe : fs.filter (fun kv => essential_fields.contains kv.1) with
    | nil => rw [vlenFields_nil]; omega
    | cons e tl =>
      have hfsne : fs ≠ [] := by
        intro hnil
        rw [hnil] at hfe
        simp at hfe
      have h1 : vlenFields (fs.filter (fun kv => essential_fields.contains kv.1))
          = sumEntry (fs.filter (fun kv => essential_fields.contains kv.1))
            + 2 * ((fs.filter (fun kv => essential_fields.contains kv.1)).length - 1) := by
        rw [hfe]
        exact vlenFields_formula _ (by simp)
      have h2 : vlenFields fs = sumEntry fs + 2 * (fs.length - 1) :=
        vlenFields_formula _ hfsne
      have h3 := sumEntry_filter_le (fun kv => essential_fields.contains kv.1) fs
      have h4 := List.length_filter_le (fun kv => essential_fields.contains kv.1) fs
      rw [← hfe]
      omega
  simp only [compact_test_results_obj]
  cases hl : lookup (fs.filter (fun kv => essential_fields.contains kv.1))
      "error_message" with
  | none =>
    show 2 + vlenFields (fs.filter (fun kv => essential_fields.contains kv.1))
      ≤ 2 + vlenFields fs + 28
    omega
  | some em =>
    cases em with
    | str s =>
      by_cases h5 : 500 < s.length
      · show vlen (if 500 < s.length then
            JValue.obj (dictInsert
              (fs.filter (fun kv => essential_fields.contains kv.1)) "error_message"
              (JValue.str (String.mk (s.data.take 500) ++ "...")))
          else JValue.obj (fs.filter (fun kv => essential_fields.contains kv.1)))
          ≤ vlen (JValue.obj fs) + 28
        rw [if_pos h5]
        have hnew : vlen (JValue.str (String.mk (s.data.take 500) ++ "..."))
            ≤ vlen (JValue.str s) + 2 := by
          show (String.mk (s.data.take 500) ++ "...").length + 2 ≤ s.length + 2 + 2
          rw [String.length_append]
          have h6 : (String.mk (s.data.take 500)).length
              = (s.data.take 500).length := rfl
          rw [h6, List.length_take]
          have h7 : ("..." : String).length = 3 := rfl
          have h8 : s.data.length = s.length := rfl
          omega
        obtain ⟨hsum2, hlen2⟩ := sumEntry_dictInsert_replace
          (fs.filter (fun kv => essential_fields.contains kv.1)) "error_message"
          (JValue.str s) (JValue.str (String.mk (s.data.take 500) ++ "...")) 2
          hl hnew
        have hne2 : fs.filter (fun kv => essential_fields.contains kv.1) ≠ [] := by
          intro hnil
          rw [hnil] at hl
          simp [lookup] at hl
        have hdne : dictInsert (fs.filter (fun kv => essential_fields.contains kv.1))
            "error_message" (JValue.str (String.mk (s.data.take 500) ++ "...")) ≠ [] := by
          intro hnil
          have := lookup_dictInsert_self
            (fs.filter (fun kv => essential_fields.contains kv.1)) "error_message"
            (JValue.str (String.mk (s.data.take 500) ++ "..."))
          rw [hnil] at this
          simp [lookup] at this
        have h9 := vlenFields_formula _ hdne
        have h10 := vlenFields_formula _ hne2
        show 2 + vlenFields (dictInsert
            (fs.filter (fun kv => essential_fields.contains kv.1)) "error_message"
            (JValue.str (String.mk (s.data.take 500) ++ "...")))
          ≤ 2 + vlenFields fs + 28
        rw [h9]
        rw [h10] at hfilter
        rw [hlen2]
        omega
      · show vlen (if 500 < s.length then
            JValue.obj (dictInsert
              (fs.filter (fun kv => essential_fields.contains kv.1)) "error_message"
              (JValue.str (String.mk (s.data.take 500) ++ "...")))
          else JValue.obj (fs.filter (fun kv => essential_fields.contains kv.1)))
          ≤ vlen (JValue.obj fs) + 28
        rw [if_neg h5]
        show 2 + vlenFields (fs.filter (fun kv => essential_fields.contains kv.1))
          ≤ 2 + vlenFields fs + 28
        omega
    | null =>
      show 2 + vlenFields (fs.filter (fun kv => essential_fields.contains kv.1))
        ≤ 2 + vlenFields fs + 28
      omega
    | bool b =>
      show 2 + vlenFields (fs.filter (fun kv => essential_fields.contains kv.1))
        ≤ 2 + vlenFields fs + 28
      omega
    | num n =>
      show 2 + vlenFields (fs.filter (fun kv => essential_fields.contains kv.1))
        ≤ 2 + vlenFields fs + 28
      omega
    | arr es =>
      show 2 + vlenFields (fs.filter (fun kv => essential_fields.contains kv.1))
        ≤ 2 + vlenFields fs + 28
      omega
    | obj fs2 =>
      show 2 + vlenFields (fs.filter (fun kv => essential_fields.contains kv.1))
        ≤ 2 + vlenFields fs + 28
      omega

theorem compact_test_results_vlen_le (v : JValue) :
    vlen (compact_test_results v) ≤ vlen v + 28 := by
  by_cases ht : truthy v = false
  · rw [compact_test_results.eq_def, if_pos ht]
    have h1 : vlen (JValue.obj []) = 2 := rfl
    omega
  · cases v with
    | obj fs =>
      rw [compact_test_results.eq_def, if_neg ht]
      show vlen (compact_test_results_obj fs) ≤ vlen (JValue.obj fs) + 28
      exact compact_test_results_obj_vlen_le fs
    | null => exact absurd rfl ht
    | bool b =>
      rw [compact_test_results.eq_def, if_neg ht]
      show vlen (JValue.bool b) ≤ vlen (JValue.bool b) + 28
      omega
    | num n =>
      rw [compact_test_results.eq_def, if_neg ht]
      show vlen (JValue.num n) ≤ vlen (JValue.num n) + 28
      omega
    | str st =>
      rw [compact_test_results.eq_def, if_neg ht]
      show vlen (JValue.str st) ≤ vlen (JValue.str st) + 28
      omega
    | arr es =>
      rw [compact_test_results.eq_def, if_neg ht]
      show vlen (JValue.arr es) ≤ vlen (JValue.arr es) + 28
      omega

/-- The number of files of the `code_files` entry of a context (`0` when the
field is absent or not a dict). -/
def filesCount (ctx : List (String × JValue)) : Nat :=
  match lookup ctx "code_files" with
  | some v => filesCountOf v
  | none => 0

/-- Per-field character overhead that `compact` can add: one truncation
marker (at most 28 characters) plus, for the `code_files` field, one
truncation marker per file. -/
def entryOverhead (ctx : List (String × JValue)) : Nat :=
  28 + 28 * filesCount ctx

/-- Every entry of an intermediate dict built by `compact` stems from a field
of `ctx` and has grown by at most `entryOverhead ctx` characters; the keys
stay distinct. -/
def CompactedFrom (ctx acc : List (String × JValue)) : Prop :=
  (keys acc).Nodup ∧
    ∀ kv, kv ∈ acc → ∃ v0, lookup ctx kv.1 = some v0
      ∧ entryLen kv ≤ entryLen (kv.1, v0) + entryOverhead ctx

theorem CompactedFrom_nil (ctx : List (String × JValue)) : CompactedFrom ctx [] :=
  ⟨List.nodup_nil, by intro kv hkv; simp at hkv⟩

theorem CompactedFrom_dictInsert (ctx acc : List (String × JValue)) (k : String)
    (v v0 : JValue) (hacc : CompactedFrom ctx acc) (hl : lookup ctx k = some v0)
    (hv : vlen v ≤ vlen v0 + entryOverhead ctx) :
    CompactedFrom ctx (dictInsert acc k v) := by
  obtain ⟨hnd, hmem⟩ := hacc
  refine ⟨keys_dictInsert_nodup acc k v hnd, ?_⟩
  intro kv hkv
  rcases mem_dictInsert acc k v kv hkv with heq | hmem2
  · refine ⟨v0, by rw [heq]; exact hl, ?_⟩
    rw [heq]
    show entryLen (k, v) ≤ entryLen ((k, v).1, v0) + entryOverhead ctx
    show k.length + 4 + vlen v ≤ k.length + 4 + vlen v0 + entryOverhead ctx
    omega
  · exact hmem kv hmem2

theorem foldl_ruleStep_CompactedFrom (ctx : List (String × JValue))
    (rules : List PreservationRule) (acc : List (String × JValue))
    (h : CompactedFrom ctx acc) :
    CompactedFrom ctx (rules.foldl (ruleStep ctx) acc) := by
  induction rules generalizing acc with
  | nil => exact h
  | cons r rest ih =>
    rw [List.foldl_cons]
    apply ih
    cases hl : lookup ctx r.pattern with
    | none =>
      have hstep : ruleStep ctx acc r = acc := by
        simp only [ruleStep, hl]
      rw [hstep]
      exact h
    | some v =>
      have hstep : ruleStep ctx acc r
          = dictInsert acc r.pattern (truncateValue r.max_tokens v) := by
        simp only [ruleStep, hl]
      rw [hstep]
      refine CompactedFrom_dictInsert ctx acc r.pattern _ v h hl ?_
      have hb := truncateValue_vlen_le r.max_tokens v
      rw [entryOverhead]
      omega

theorem compact_c1_CompactedFrom (ctx : List (String × JValue)) :
    CompactedFrom ctx (compact_c1 ctx) :=
  foldl_ruleStep_CompactedFrom ctx (sortRulesDesc preservation_rules) []
    (CompactedFrom_nil ctx)

theorem compact_c2_CompactedFrom (ctx : List (String × JValue)) :
    CompactedFrom ctx (compact_c2 ctx) := by
  have h1 := compact_c1_CompactedFrom ctx
  cases hl : lookup ctx "code_files" with
  | none =>
    have hstep : compact_c2 ctx = compact_c1 ctx := by
      simp only [compact_c2, hl]
    rw [hstep]
    exact h1
  | some v =>
    have hstep : compact_c2 ctx
        = dictInsert (compact_c1 ctx) "code_files" (compact_code_files v) := by
      simp only [compact_c2, hl]
    rw [hstep]
    refine CompactedFrom_dictInsert ctx _ "code_files" _ v h1 hl ?_
    have hb := compact_code_files_vlen_le v
    have hfc : filesCount ctx = filesCountOf v := by
      simp only [filesCount, hl]
    rw [entryOverhead, hfc]
    omega

theorem compact_c3_CompactedFrom (ctx : List (String × JValue)) :
    CompactedFrom ctx (compact_c3 ctx) := by
  have h2 := compact_c2_CompactedFrom ctx
  cases hl : lookup ctx "test_results" with
  | none =>
    have hstep : compact_c3 ctx = compact_c2 ctx := by
      simp only [compact_c3, hl]
    rw [hstep]
    exact h2
  | some v =>
    have hstep : compact_c3 ctx
        = dictInsert (compact_c2 ctx) "test_results" (compact_test_results v) := by
      simp only [compact_c3, hl]
    rw [hstep]
    refine CompactedFrom_dictInsert ctx _ "test_results" _ v h2 hl ?_
    have hb := compact_test_results_vlen_le v
    rw [entryOverhead]
    omega

theorem foldl_copyFieldStep_CompactedFrom (ctx : List (String × JValue))
    (fields : List String) (acc : List (String × JValue))
    (h : CompactedFrom ctx acc) :
    CompactedFrom ctx (fields.foldl (copyFieldStep ctx) acc) := by
  induction fields generalizing acc with
  | nil => exact h
  | cons f rest ih =>
    rw [List.foldl_cons]
    apply ih
    cases hl : lookup ctx f with
    | none =>
      have hstep : copyFieldStep ctx acc f = acc := by
        simp only [copyFieldStep, hl]
      rw [hstep]
      exact h
    | some v =>
      have hstep : copyFieldStep ctx acc f = dictInsert acc f v := by
        simp only [copyFieldStep, hl]
      rw [hstep]
      exact CompactedFrom_dictInsert ctx acc f v v h hl (Nat.le_add_right _ _)

theorem compact_c4_CompactedFrom (ctx : List (String × JValue)) :
    CompactedFrom ctx (compact_c4 ctx) :=
  foldl_copyFieldStep_CompactedFrom ctx small_fields (compact_c3 ctx)
    (compact_c3_CompactedFrom ctx)

/-- Distinct keys picked out of `ctx` cannot sum to more than all of `ctx`. -/
theorem sumEntry_pickKeys_le (ctx : List (String × JValue)) (ks : List String)
    (hnd : ks.Nodup) : sumEntry (pickKeys ctx ks) ≤ sumEntry ctx := by
  have hpnd : (pickKeys ctx ks).Nodup := by
    have hk : (keys (pickKeys ctx ks)).Nodup := by
      rw [keys_pickKeys]
      exact hnd.filter _
    exact List.Nodup.of_map Prod.fst hk
  have hsub : ∀ kv, kv ∈ pickKeys ctx ks → kv ∈ ctx := by
    intro kv hkv
    obtain ⟨k, v⟩ := kv
    rw [mem_pickKeys] at hkv
    exact mem_of_lookup_eq_some ctx k v hkv.2
  have hsp : (pickKeys ctx ks).Subperm ctx := List.Nodup.subperm hpnd hsub
  obtain ⟨l, hperm, hsl⟩ := hsp
  have h2 : (l.map entryLen).sum ≤ (ctx.map entryLen).sum :=
    List.Sublist.sum_le_sum (hsl.map entryLen) (by intro x hx; omega)
  show ((pickKeys ctx ks).map entryLen).sum ≤ (ctx.map entryLen).sum
  rw [← (hperm.map entryLen).sum_eq]
  exact h2

/-- Pointwise consequence of `CompactedFrom`: the entry sum of the compacted
dict is bounded by the sum of the original entries with the same keys plus
the per-entry overhead. -/
theorem sumEntry_le_pickKeys_add (ctx acc : List (String × JValue))
    (h : ∀ kv, kv ∈ acc → ∃ v0, lookup ctx kv.1 = some v0
      ∧ entryLen kv ≤ entryLen (kv.1, v0) + entryOverhead ctx) :
    sumEntry acc ≤ sumEntry (pickKeys ctx (keys acc))
      + entryOverhead ctx * acc.length := by
  induction acc with
  | nil => simp [sumEntry, pickKeys, keys]
  | cons e tl ih =>
    obtain ⟨k, v⟩ := e
    obtain ⟨v0, hl, hle⟩ := h (k, v) (List.mem_cons_self _ _)
    have hl2 : lookup ctx k = some v0 := hl
    have hle2 : entryLen (k, v) ≤ entryLen (k, v0) + entryOverhead ctx := hle
    have htl := ih (fun kv hkv => h kv (List.mem_cons_of_mem _ hkv))
    have hkeys : keys ((k, v) :: tl) = k :: keys tl := rfl
    rw [hkeys, pickKeys_cons, hl2]
    show sumEntry ((k, v) :: tl)
      ≤ sumEntry ((k, v0) :: pickKeys ctx (keys tl))
        + entryOverhead ctx * ((k, v) :: tl).length
    rw [sumEntry_cons, sumEntry_cons]
    simp only [List.length_cons]
    have hmul : entryOverhead ctx * (tl.length + 1)
        = entryOverhead ctx * tl.length + entryOverhead ctx := by ring
    omega

theorem length_le_of_CompactedFrom (ctx acc : List (String × JValue))
    (h : CompactedFrom ctx acc) : acc.length ≤ ctx.length := by
  obtain ⟨hnd, hmem⟩ := h
  have hsub : keys acc ⊆ keys ctx := by
    intro k hk
    rw [keys, List.mem_map] at hk
    obtain ⟨kv, hkv, hfst⟩ := hk
    obtain ⟨v0, hl, hgrow⟩ := hmem kv hkv
    rw [← hfst]
    exact List.mem_map.mpr ⟨(kv.1, v0), mem_of_lookup_eq_some ctx kv.1 v0 hl, rfl⟩
  have hsp := List.Nodup.subperm hnd hsub
  have hlen := hsp.length_le
  have h1 : (keys acc).length = acc.length := by
    rw [keys, List.length_map]
  have h2 : (keys ctx).length = ctx.length := by
    rw [keys, List.length_map]
  omega

theorem sumEntry_compact_c4_le (ctx : List (String × JValue)) :
    sumEntry (compact_c4 ctx) ≤ sumEntry ctx
      + entryOverhead ctx * (compact_c4 ctx).length := by
  obtain ⟨hnd, hmem⟩ := compact_c4_CompactedFrom ctx
  have h1 := sumEntry_le_pickKeys_add ctx (compact_c4 ctx) hmem
  have h2 := sumEntry_pickKeys_le ctx (keys (compact_c4 ctx)) hnd
  omega

/-- Explicit character overhead of one `compact` call: per-field growth,
extra separators and the `_compaction_metadata` entry. -/
def compact_overhead_chars (ctx : List (String × JValue)) : Nat :=
  entryOverhead ctx * ctx.length + 2 * ctx.length
    + entryLen ("_compaction_metadata", compact_meta ctx) + 4

/-- `compact` grows the serialized context by at most
`compact_overhead_chars`. -/
theorem compact_vlen_le (ctx : List (String × JValue)) :
    vlen (JValue.obj (compact ctx))
      ≤ vlen (JValue.obj ctx) + compact_overhead_chars ctx := by
  have hc4sum := sumEntry_compact_c4_le ctx
  have hc4len := length_le_of_CompactedFrom ctx (compact_c4 ctx)
    (compact_c4_CompactedFrom ctx)
  have hins := sumEntry_dictInsert_le (compact_c4 ctx) "_compaction_metadata"
    (compact_meta ctx)
  have hinslen := length_dictInsert_le (compact_c4 ctx) "_compaction_metadata"
    (compact_meta ctx)
  have hup := vlenFields_le_sumEntry_add
    (dictInsert (compact_c4 ctx) "_compaction_metadata" (compact_meta ctx))
  have hdown := sumEntry_le_vlenFields ctx
  have hmul := Nat.mul_le_mul_left (entryOverhead ctx) hc4len
  show 2 + vlenFields (dictInsert (compact_c4 ctx) "_compaction_metadata"
      (compact_meta ctx))
    ≤ 2 + vlenFields ctx + compact_overhead_chars ctx
  rw [compact_overhead_chars]
  omega

/-- The token-estimate overhead corresponding to `compact_overhead_chars`
(one extra token absorbs the flooring of the two divisions). -/
def compact_overhead_tokens (ctx : List (String × JValue)) : Nat :=
  compact_overhead_chars ctx / 4 + 1

/-- Thresholds with a tiny 40-token budget, under which small contexts
already overflow. -/
def thresholdsX : ContextThresholds := { max_tokens := 40 }

/-- An overflowing context under `thresholdsX`: one 200-character code file. -/
def ctxX : List (String × JValue) :=
  [("code_files",
    JValue.obj [("a.py", JValue.str (String.mk (List.replicate 200 'a')))])]

set_option maxRecDepth 100000 in
/-- C3, counterexample: on a context whose analyzed status is OVERFLOW,
`compact` can *increase* the token estimate. Here nothing qualifies for
truncation (the file is below every threshold that triggers shortening), yet
`compact` attaches the `_compaction_metadata` entry, so the estimate grows
from 57 to 85 tokens. -/
theorem compact_can_increase_estimate :
    (analyze thresholdsX ctxX).status = ContextHealthStatus.OVERFLOW
    ∧ context_tokens ctxX < context_tokens (compact ctxX) := by
  constructor
  · decide
  · decide

/-- C3 (amended): compaction is not size-decreasing in general, but its
growth is bounded: for every context — in particular those whose analyzed
status is CRITICAL or OVERFLOW — the token estimate of `compact(ctx)` is at
most the estimate of `ctx` plus the explicit bookkeeping overhead
`compact_overhead_tokens ctx` (truncation markers, per-file markers of the
`code_files` compaction, separators and the `_compaction_metadata` entry). -/
theorem compact_estimate_bound (thresholds : ContextThresholds)
    (ctx : List (String × JValue))
    (hstatus : (analyze thresholds ctx).status = ContextHealthStatus.CRITICAL
      ∨ (analyze thresholds ctx).status = ContextHealthStatus.OVERFLOW) :
    context_tokens (compact ctx)
      ≤ context_tokens ctx + compact_overhead_tokens ctx := by
  have hchars := compact_vlen_le ctx
  show vlen (JValue.obj (compact ctx)) / 4
    ≤ vlen (JValue.obj ctx) / 4 + compact_overhead_tokens ctx
  rw [compact_overhead_tokens]
  omega

set_option maxRecDepth 100000 in
/-- Witness for the amended C3 bound at the overflowing context `ctxX`. -/
theorem compact_estimate_bound_witness :
    ((analyze thresholdsX ctxX).status = ContextHealthStatus.CRITICAL
      ∨ (analyze thresholdsX ctxX).status = ContextHealthStatus.OVERFLOW)
    ∧ context_tokens (compact ctxX)
      ≤ context_tokens ctxX + compact_overhead_tokens ctxX :=
  ⟨Or.inr (by decide),
    compact_estimate_bound thresholdsX ctxX (Or.inr (by decide))⟩

end Miracle
